import Mathlib

/-!
Verification development for the `pathtrie` repository: a path-compressed
radix trie over byte-string keys (`src/lib.rs`, `src/node.rs`, `src/lcp.rs`)
together with a compact serialised form written by `write_fst` and read by
`Fst::get` (`src/fst.rs`).

Bytes are modelled as `Nat` (only equality and ordering of bytes matter to the
trie; the writer emits byte values < 256).  Machine integers are modelled as
`Nat` with explicit `% 2 ^ (8 * W)` arithmetic where overflow matters.
Rust panics (`panic!`, `expect`, `unreachable!`, assertion failures) are
modelled as `none` / `Option.none` results of the corresponding function.
-/

set_option maxRecDepth 100000

namespace Pathtrie

abbrev Key := List Nat

/-- `Prefix` from `src/lcp.rs`: the five-way classification of the common
prefix of two byte strings. -/
inductive Prefix where
  | noMatch (o : Ordering)
  | perfectSubset (n : Nat)
  | divergent (n : Nat)
  | incomplete (n : Nat)
  | exact
  deriving DecidableEq, Repr

/-- Lexicographic comparison of byte slices, as Rust's `<[u8] as Ord>::cmp`. -/
def cmpBytes : Key → Key → Ordering
  | [], [] => .eq
  | [], _ :: _ => .lt
  | _ :: _, [] => .gt
  | a :: as, b :: bs =>
    if a < b then .lt else if b < a then .gt else cmpBytes as bs

/-- `source.iter().zip(candidate.iter()).position(|(x, y)| x != y)` from
`find_common_prefix`: index of the first differing byte pair, if any. -/
def firstDiff : Key → Key → Option Nat
  | [], _ => none
  | _ :: _, [] => none
  | x :: s, y :: c => if x = y then (firstDiff s c).map (· + 1) else some 0

/-- `find_common_prefix` from `src/lcp.rs`.  The Rust function matches on the
pair `(source.len() == candidate.len(), result)`; the arms are reproduced in
the same order (`(_, Some(0))`, `(_, Some(len))`, `(false, None)`,
`(true, None)`). -/
def findCommonPrefix (source candidate : Key) : Prefix :=
  match firstDiff source candidate with
  | some 0 => .noMatch (cmpBytes source candidate)
  | some (l + 1) => .divergent (l + 1)
  | none =>
    if source.length = candidate.length then .exact
    else if candidate.length < source.length then .perfectSubset candidate.length
    else .incomplete source.length

/-! ### Characterisation of the classifier -/

theorem findCommonPrefix_of_firstDiff_none {s c : Key}
    (h : firstDiff s c = none) :
    findCommonPrefix s c =
      if s.length = c.length then .exact
      else if c.length < s.length then .perfectSubset c.length
      else .incomplete s.length := by
  unfold findCommonPrefix
  rw [h]

theorem findCommonPrefix_of_firstDiff_zero {s c : Key}
    (h : firstDiff s c = some 0) :
    findCommonPrefix s c = .noMatch (cmpBytes s c) := by
  unfold findCommonPrefix
  rw [h]

theorem findCommonPrefix_of_firstDiff_succ {s c : Key} {l : Nat}
    (h : firstDiff s c = some (l + 1)) :
    findCommonPrefix s c = .divergent (l + 1) := by
  unfold findCommonPrefix
  rw [h]

theorem firstDiff_eq_none {s c : Key} :
    firstDiff s c = none ↔ (s <+: c ∨ c <+: s) := by
  induction s generalizing c with
  | nil => simp [firstDiff]
  | cons a as ih =>
    cases c with
    | nil => simp [firstDiff]
    | cons b bs =>
      by_cases hab : a = b
      · subst hab
        simp [firstDiff, Option.map_eq_none', ih, List.cons_prefix_cons]
      · constructor
        · intro h
          simp [firstDiff, hab] at h
        · intro h
          rcases h with h | h
          · exact absurd (List.cons_prefix_cons.mp h).1 hab
          · exact absurd (List.cons_prefix_cons.mp h).1 (fun hba => hab hba.symm)

theorem firstDiff_eq_some {s c : Key} {n : Nat} :
    firstDiff s c = some n ↔
      (s.take n = c.take n ∧ n < s.length ∧ n < c.length ∧
        s.get? n ≠ c.get? n) := by
  induction s generalizing c n with
  | nil => simp [firstDiff]
  | cons a as ih =>
    cases c with
    | nil => simp [firstDiff]
    | cons b bs =>
      by_cases hab : a = b
      · subst hab
        cases n with
        | zero =>
          simp [firstDiff]
        | succ m =>
          constructor
          · intro h
            have h' : ∃ k, firstDiff as bs = some k ∧ k + 1 = m + 1 := by
              simpa [firstDiff, Option.map_eq_some'] using h
            obtain ⟨k, hk, hkm⟩ := h'
            have hk' : k = m := by omega
            subst hk'
            obtain ⟨h1, h2, h3, h4⟩ := ih.mp hk
            exact ⟨by simpa using h1, by simpa using h2, by simpa using h3,
              by simpa using h4⟩
          · intro ⟨h1, h2, h3, h4⟩
            have h1' : as.take m = bs.take m := by simpa using h1
            have h2' : m < as.length := by simpa using h2
            have h3' : m < bs.length := by simpa using h3
            have h4' : as.get? m ≠ bs.get? m := by simpa using h4
            have hfd : firstDiff as bs = some m := ih.mpr ⟨h1', h2', h3', h4'⟩
            simp [firstDiff, hfd]
      · cases n with
        | zero => simp [firstDiff, hab]
        | succ m => simp [firstDiff, hab]

theorem findCommonPrefix_noMatch_iff {s c : Key} {o : Ordering} :
    findCommonPrefix s c = .noMatch o ↔
      (s ≠ [] ∧ c ≠ [] ∧ s.head? ≠ c.head? ∧ o = cmpBytes s c) := by
  constructor
  · intro h
    rcases hfd : firstDiff s c with _ | m
    · rw [findCommonPrefix_of_firstDiff_none hfd] at h
      split at h
      · simp at h
      · split at h <;> simp at h
    · cases m with
      | zero =>
        rw [findCommonPrefix_of_firstDiff_zero hfd] at h
        simp only [Prefix.noMatch.injEq] at h
        obtain ⟨h1, h2, h3, h4⟩ := firstDiff_eq_some.mp hfd
        cases s with
        | nil => simp at h2
        | cons a as =>
          cases c with
          | nil => simp at h3
          | cons b bs =>
            refine ⟨by simp, by simp, ?_, h.symm⟩
            simpa using h4
      | succ l =>
        rw [findCommonPrefix_of_firstDiff_succ hfd] at h
        simp at h
  · intro ⟨h1, h2, h3, h4⟩
    cases s with
    | nil => exact absurd rfl h1
    | cons a as =>
      cases c with
      | nil => exact absurd rfl h2
      | cons b bs =>
        have hab : a ≠ b := by simpa using h3
        have hfd : firstDiff (a :: as) (b :: bs) = some 0 := by
          simp [firstDiff, hab]
        rw [findCommonPrefix_of_firstDiff_zero hfd, h4]

theorem findCommonPrefix_exact_iff {s c : Key} :
    findCommonPrefix s c = .exact ↔ s = c := by
  constructor
  · intro h
    rcases hfd : firstDiff s c with _ | m
    · rw [findCommonPrefix_of_firstDiff_none hfd] at h
      split at h
      · rename_i hlen
        rcases firstDiff_eq_none.mp hfd with hp | hp
        · exact hp.eq_of_length hlen
        · exact (hp.eq_of_length hlen.symm).symm
      · split at h <;> simp at h
    · cases m with
      | zero => rw [findCommonPrefix_of_firstDiff_zero hfd] at h; simp at h
      | succ l => rw [findCommonPrefix_of_firstDiff_succ hfd] at h; simp at h
  · intro h
    subst h
    have hfd : firstDiff s s = none := firstDiff_eq_none.mpr (Or.inl List.prefix_rfl)
    rw [findCommonPrefix_of_firstDiff_none hfd]
    simp

theorem findCommonPrefix_incomplete_iff {s c : Key} {n : Nat} :
    findCommonPrefix s c = .incomplete n ↔
      (s <+: c ∧ s.length < c.length ∧ n = s.length) := by
  constructor
  · intro h
    rcases hfd : firstDiff s c with _ | m
    · rw [findCommonPrefix_of_firstDiff_none hfd] at h
      split at h
      · simp at h
      · rename_i hlen
        split at h
        · simp at h
        · rename_i hgt
          have hlt : s.length < c.length := by omega
          rcases firstDiff_eq_none.mp hfd with hp | hp
          · simp only [Prefix.incomplete.injEq] at h
            exact ⟨hp, hlt, h.symm⟩
          · have := hp.length_le
            omega
    · cases m with
      | zero => rw [findCommonPrefix_of_firstDiff_zero hfd] at h; simp at h
      | succ l => rw [findCommonPrefix_of_firstDiff_succ hfd] at h; simp at h
  · intro ⟨hp, hlt, hn⟩
    have hfd : firstDiff s c = none := firstDiff_eq_none.mpr (Or.inl hp)
    rw [findCommonPrefix_of_firstDiff_none hfd]
    have hne : ¬ s.length = c.length := by omega
    have hng : ¬ c.length < s.length := by omega
    simp [hne, hng, hn]

theorem findCommonPrefix_perfectSubset_iff {s c : Key} {n : Nat} :
    findCommonPrefix s c = .perfectSubset n ↔
      (c <+: s ∧ c.length < s.length ∧ n = c.length) := by
  constructor
  · intro h
    rcases hfd : firstDiff s c with _ | m
    · rw [findCommonPrefix_of_firstDiff_none hfd] at h
      split at h
      · simp at h
      · rename_i hlen
        split at h
        · rename_i hgt
          simp only [Prefix.perfectSubset.injEq] at h
          rcases firstDiff_eq_none.mp hfd with hp | hp
          · have := hp.length_le
            omega
          · exact ⟨hp, hgt, h.symm⟩
        · simp at h
    · cases m with
      | zero => rw [findCommonPrefix_of_firstDiff_zero hfd] at h; simp at h
      | succ l => rw [findCommonPrefix_of_firstDiff_succ hfd] at h; simp at h
  · intro ⟨hp, hlt, hn⟩
    have hfd : firstDiff s c = none := firstDiff_eq_none.mpr (Or.inr hp)
    rw [findCommonPrefix_of_firstDiff_none hfd]
    have hne : ¬ s.length = c.length := by omega
    simp [hne, hlt, hn]

theorem findCommonPrefix_divergent {s c : Key} {n : Nat}
    (h : findCommonPrefix s c = .divergent n) :
    s.take n = c.take n ∧ 0 < n ∧ n < s.length ∧ n < c.length ∧
      s.get? n ≠ c.get? n := by
  rcases hfd : firstDiff s c with _ | m
  · rw [findCommonPrefix_of_firstDiff_none hfd] at h
    split at h
    · simp at h
    · split at h <;> simp at h
  · cases m with
    | zero => rw [findCommonPrefix_of_firstDiff_zero hfd] at h; simp at h
    | succ l =>
      rw [findCommonPrefix_of_firstDiff_succ hfd] at h
      simp only [Prefix.divergent.injEq] at h
      subst h
      obtain ⟨h1, h2, h3, h4⟩ := firstDiff_eq_some.mp hfd
      exact ⟨h1, Nat.succ_pos l, h2, h3, h4⟩

/-! ### The in-memory radix trie (`src/node.rs`, `src/lib.rs`)

`Node<T>` carries a key fragment and a body that is either a child list or a
terminal value (`NodeBody::Children` / `NodeBody::Value`).  The body enum is
flattened into the two constructors.  Values are modelled as `Nat`. -/

inductive Node where
  | value (key : Key) (v : Nat)
  | children (key : Key) (cs : List Node)

instance : Inhabited Node := ⟨.children [] []⟩

def Node.key : Node → Key
  | .value k _ => k
  | .children k _ => k

def Node.isValue : Node → Prop
  | .value _ _ => True
  | .children _ _ => False

/-- `node::cmp`: descending fragment length first, then ascending
lexicographic among equal lengths. -/
def keyCmp (a b : Key) : Ordering :=
  match compare b.length a.length with
  | .eq => cmpBytes a b
  | x => x

/-- Insertion into a `keyCmp`-sorted list.  `Vec::sort_unstable` produces a
permutation sorted by `node::cmp`; since sibling fragments are pairwise
distinct (so `keyCmp` never returns `.eq` on two different live siblings),
the sorted result is unique and insertion sort computes it. -/
def insSorted (n : Node) : List Node → List Node
  | [] => [n]
  | m :: ms =>
    match keyCmp n.key m.key with
    | .gt => m :: insSorted n ms
    | _ => n :: m :: ms

def sortNodes : List Node → List Node
  | [] => []
  | n :: ns => insSorted n (sortNodes ns)

/-- `Node::push` (`src/node.rs:143`): append a child and re-sort; on a
`Value` body, first `convert_value_to_children(Default::default())`, which
moves the value into an empty-fragment child. -/
def Node.push : Node → Node → Node
  | .children k cs, m => .children k (sortNodes (cs ++ [m]))
  | .value k v, m => .children k (sortNodes ([Node.value [] v] ++ [m]))

/-- `Node::convert_value_to_children` (`src/node.rs:117`): only ever called
on a `Value`-bodied node (`debug_assert!`); the `children` arm is dead. -/
def Node.convertValueToChildren : Node → Key → Node
  | .value k v, ke => .children (k.take (k.length - ke.length)) [Node.value ke v]
  | n, _ => n

/-- `Node::set_value` (`src/node.rs:168`); panics (`none`) on a `Children`
body ("set_value misused!"). -/
def Node.setValue : Node → Nat → Option Node
  | .value k _, v => some (.value k v)
  | .children _ _, _ => none

/-- `Node::diverge` (`src/node.rs:83`): split child `i` at `p`, re-rooting
its old body under the tail fragment and adding a new `Value` child for the
tail of `key`; finally re-sort the parent's children. -/
def Node.diverge (n : Node) (i p : Nat) (key : Key) (v : Nat) : Node :=
  match n with
  | .children k0 cs =>
    let c := cs.getD i default
    let sub1 : Node :=
      match c with
      | .children ck ch => (Node.children ck []).push (.children (ck.drop p) ch)
      | .value ck v0 => (Node.value ck v0).convertValueToChildren (ck.drop p)
    let sub2 := sub1.push (.value (key.drop p) v)
    let sub3 : Node :=
      match sub2 with
      | .children _ cs2 => Node.children (key.take p) cs2
      | m => m
    Node.children k0 (sortNodes (cs.set i sub3))
  | m => m

/-- `PathTrie::find_prefix` (`src/lib.rs:309`): scan the children for the
first whose fragment is not `NoMatch` against `key`.  The Rust function
returns `(Option<usize>, Prefix)` where the `Prefix` is the classification of
the last-examined child; `(None, p)` can only occur with `p` a `NoMatch`
(every examined child classified `NoMatch`), and both `insert_inner` and
`walk` treat `(None, NoMatch)` as the single no-match case (the `(None, _)`
arms are `unreachable!`), so the pair is folded into an `Option`. -/
def findPrefixAux (key : Key) : List Node → Nat → Option (Nat × Prefix)
  | [], _ => none
  | c :: rest, i =>
    match findCommonPrefix c.key key with
    | .noMatch _ => findPrefixAux key rest (i + 1)
    | p => some (i, p)

def findPrefix (n : Node) (key : Key) : Option (Nat × Prefix) :=
  match n with
  | .children _ cs => findPrefixAux key cs 0
  | .value _ _ => none

/-- `PathTrie::insert_inner` (`src/lib.rs:266`), with fuel making the
recursion structural: each recursive call is on `key[p..]` with `p ≥ 1`, so
`key.length + 1` units of fuel always suffice (`insertInner` below).
`none` models a panic (`set_value misused!` via the `Exact` arm on a
`Children`-bodied child). -/
def insertInnerF : Nat → Node → Key → Nat → Option Node
  | 0, _, _, _ => none
  | fuel + 1, n, key, v =>
    match n, findPrefix n key with
    | n, none => some (n.push (.value key v))
    | n, some (_, .incomplete 0) => some (n.push (.value key v))
    | .children k0 cs, some (i, .incomplete (p + 1)) =>
      (insertInnerF fuel (cs.getD i default) (key.drop (p + 1)) v).map
        (fun c' => Node.children k0 (cs.set i c'))
    | .children k0 cs, some (i, .perfectSubset p) =>
      let c := cs.getD i default
      let tailNode : Node :=
        match c with
        | .value ck v0 => .value (ck.drop p) v0
        | .children ck ch => .children (ck.drop p) ch
      let c' := (Node.value (c.key.take p) v).push tailNode
      some (Node.children k0 (cs.set i c'))
    | .children k0 cs, some (i, .divergent p) =>
      some ((Node.children k0 cs).diverge i p key v)
    | .children k0 cs, some (i, .exact) =>
      ((cs.getD i default).setValue v).map
        (fun c' => Node.children k0 (cs.set i c'))
    | _, some _ => none

def insertInner (n : Node) (key : Key) (v : Nat) : Option Node :=
  insertInnerF (key.length + 1) n key v

mutual
def sizeN : Node → Nat
  | .value _ _ => 1
  | .children _ cs => 1 + sizeL cs
def sizeL : List Node → Nat
  | [] => 0
  | c :: cs => sizeN c + sizeL cs
end

/-- `PathTrie::walk` (`src/lib.rs:325`), with fuel: every recursive call
descends into a child, so `sizeN`-many units suffice.  The result is
`none` for the `unreachable!` arm (never hit: `find_prefix` on a
`Value`-bodied node returns `None`), `some none` for a failed lookup and
`some (some m)` for the node the Rust function returns. -/
def walkF : Nat → Key → Node → Option (Option Node)
  | 0, _, _ => none
  | fuel + 1, key, n =>
    match n, findPrefix n key with
    | .children _ cs, some (i, .exact) =>
      match cs.getD i default with
      | .children _ cs2 =>
        some (match cs2.getLast? with
          | some x => if x.key = [] then some x else none
          | none => none)
      | .value ck v => some (some (.value ck v))
    | .children _ cs, some (i, .incomplete p) =>
      walkF fuel (key.drop p) (cs.getD i default)
    | _, none => some none
    | _, some (_, .divergent _) => some none
    | _, some (_, .perfectSubset _) => some none
    | _, some _ => none

def walk (key : Key) (n : Node) : Option (Option Node) :=
  walkF (sizeN n) key n

/-- `PathTrie` (`src/lib.rs:202`). -/
structure PathTrie where
  root : Node

/-- `PathTrie::new`. -/
def PathTrie.new : PathTrie :=
  ⟨.children [] []⟩

/-- `PathTrie::insert`; `none` models a panic inside `insert_inner`. -/
def PathTrie.insert (t : PathTrie) (key : Key) (v : Nat) : Option PathTrie :=
  (insertInner t.root key v).map PathTrie.mk

/-- `PathTrie::get` (`src/lib.rs:256`): walk to the node, then extract the
value; the `Children` branch reads `children.get(0)`, keeps it only when its
fragment is empty, and calls `assert_value`, which panics (`none`) on a
`Children` body. -/
def PathTrie.get (t : PathTrie) (key : Key) : Option (Option Nat) :=
  match walk key t.root with
  | none => none
  | some none => some none
  | some (some n) =>
    match n with
    | .value _ v => some (some v)
    | .children _ cs =>
      match cs with
      | c :: _ =>
        if c.key = [] then
          match c with
          | .value _ v => some (some v)
          | .children _ _ => none
        else some none
      | [] => some none

/-- Building a trie by a sequence of `insert` calls from `new()`;
`none` when some insert panics. -/
def buildT (l : List (Key × Nat)) : Option PathTrie :=
  l.foldlM (fun t p => t.insert p.1 p.2) PathTrie.new

/-- The value of the last insert with key `k` (last wins). -/
def lastAssoc (l : List (Key × Nat)) (k : Key) : Option Nat :=
  l.foldl (fun acc p => if p.1 = k then some p.2 else acc) none

/-! ### The compact-format writer (`write_fst`, `src/lib.rs:350`) -/

mutual
/-- `RawEntries` (`src/lib.rs:104`): for a `Children`-bodied node, yield all
children first (with `parent ++ key` as their parent path), then recurse into
each child in order; a `Value`-bodied node yields nothing. -/
def rawEntriesN : Node → Key → List (Key × Node)
  | .value _ _, _ => []
  | .children key cs, parent =>
    cs.map (fun c => (parent ++ key, c)) ++ rawEntriesL cs (parent ++ key)
def rawEntriesL : List Node → Key → List (Key × Node)
  | [], _ => []
  | c :: cs, p => rawEntriesN c p ++ rawEntriesL cs p
end

def zeros (n : Nat) : List Nat := List.replicate n 0

/-- `n`-byte little-endian encoding (`write_le_bytes`). -/
def leBytes (W v : Nat) : List Nat := (List.range W).map (fun i => v / 256 ^ i % 256)

def patchList : List Nat → List Nat → List Nat
  | bs, [] => bs
  | [], _ => []
  | _ :: bs, p :: ps => p :: patchList bs ps

/-- Overwrite bytes of `bs` starting at `off` with `patch`
(length-preserving; the writer only ever patches regions strictly inside the
already-written stream).  Models `seek(Start(o)); write_all(..); seek back`. -/
def overwriteFrom (bs : List Nat) (off : Nat) (patch : List Nat) : List Nat :=
  bs.take off ++ patchList (bs.drop off) patch

/-- The `wip_offsets` `HashMap<Box<[u8]>, u64>`: modelled as an association
list; `insert` replaces any existing binding. -/
def assocInsert (m : List (Key × Nat)) (k : Key) (v : Nat) : List (Key × Nat) :=
  (k, v) :: m.filter (fun p => p.1 ≠ k)

def assocFind (m : List (Key × Nat)) (k : Key) : Option Nat :=
  (m.find? (fun p => p.1 = k)).map (fun p => p.2)

def assocRemove (m : List (Key × Nat)) (k : Key) : List (Key × Nat) :=
  m.filter (fun p => p.1 ≠ k)

/-- `size_of::<fst::Node<T>>()` for `T` of width `W ∈ {1,2,4,8,16}`:
`repr(C) { next_node: NodeOffset (4 bytes, align 4), raw_value: T }`, so the
struct size is 8 for `W ≤ 4` and `2 * W` for `W ∈ {8, 16}`. -/
def nodeSize (W : Nat) : Nat := if W ≤ 4 then 8 else 2 * W

/-- Byte offset of `raw_value` inside `fst::Node<T>` (`repr(C)`): 4 for
`W ≤ 4`, otherwise `W` (the field is aligned to `align_of::<T>() = W`). -/
def valOff (W : Nat) : Nat := if W ≤ 4 then 4 else W

structure WState where
  buf : List Nat
  wip : List (Key × Nat)
  currentParent : Key
  offs : List Nat

/-- One iteration of the `for entry in self.raw_entries()` loop of
`write_fst` (`src/lib.rs:364-483`): emit a blank record on a parent change,
record the entry's full path in `wip_offsets`, back-patch the parent's
`next_offset` field if pending, then write the record
(4-byte `NodeOffset` placeholder/terminus sentinel, the value for `Value`
bodies, `key_len`, key bytes, zero padding to the next `W` multiple).
`none` models a panic: `expect("Keys are currently limited to 255 bytes in
length")` (lib.rs:427) or `panic!("Offset too large")` (lib.rs:405).
`offs` accumulates the stream positions at which records begin
(specification instrumentation). -/
def writeStep (W : Nat) (st : WState) (e : Key × Node) : Option WState :=
  let st :=
    if st.currentParent = e.1 then st
    else { st with buf := st.buf ++ zeros (nodeSize W),
                   offs := st.offs ++ [st.buf.length],
                   currentParent := e.1 }
  let pos := st.buf.length
  let wip := assocInsert st.wip (st.currentParent ++ e.2.key) pos
  let patched : Option (List (Key × Nat) × List Nat) :=
    match assocFind wip st.currentParent with
    | some parentOff =>
      if pos < 2 ^ (8 * W) then
        some (assocRemove wip st.currentParent,
              overwriteFrom st.buf parentOff (leBytes W pos))
      else none
    | none => some (wip, st.buf)
  match patched with
  | none => none
  | some (wip, buf) =>
    if 255 < e.2.key.length then none
    else
      let body : List Nat :=
        match e.2 with
        | .children _ _ => zeros 4
        | .value _ v => List.replicate 4 255 ++ leBytes W v
      let buf := buf ++ body ++ [e.2.key.length] ++ e.2.key
      let pad := W - buf.length % W
      some { buf := buf ++ zeros pad, wip := wip,
             currentParent := st.currentParent, offs := st.offs ++ [pos] }

/-- `PathTrie::write_fst` (`src/lib.rs:350`), specialised to an in-memory
sink (a seekable byte buffer with infallible I/O, as in the repository's own
tests, which use `Cursor<Vec<u8>>`).  Emits the blank 4-byte header and
`4 % W` alignment nulls, runs the entry loop, appends the final blank
record, and back-patches the real header `FF DF 00 W`.  The second component
of the result lists every record start offset (instrumentation).  `none`
models a panic inside the loop. -/
def writeFst (W : Nat) (t : PathTrie) : Option (List Nat × List Nat) :=
  let init : WState :=
    { buf := zeros 4 ++ zeros (4 % W), wip := [], currentParent := [], offs := [] }
  match (rawEntriesN t.root []).foldlM (writeStep W) init with
  | none => none
  | some st =>
    let finalOff := st.buf.length
    let buf := st.buf ++ zeros (nodeSize W)
    some (overwriteFrom buf 0 [0xFF, 0xDF, 0, W], st.offs ++ [finalOff])

/-! ### The compact-format reader (`src/fst.rs`) -/

/-- `fst::Error`. -/
inductive FstError where
  | invalidMagicBytes (b0 b1 : Nat)
  | invalidAlignment (found expected : Nat)
  | tooSmall
  deriving DecidableEq, Repr

/-- `Fst::new` (`src/fst.rs:41`): checks, in order, buffer length against
`size_of::<Header>() = 4`, the magic bytes, and the alignment byte.
(The version byte is read into the `Header` struct but never compared.) -/
def fstNew (W : Nat) (data : List Nat) : Except FstError Unit :=
  if data.length < 4 then .error .tooSmall
  else if ¬ (data.getD 0 0 = 0xFF ∧ data.getD 1 0 = 0xDF) then
    .error (.invalidMagicBytes (data.getD 0 0) (data.getD 1 0))
  else if data.getD 3 0 ≠ W then .error (.invalidAlignment (data.getD 3 0) W)
  else .ok ()

/-- Little-endian read of `n` bytes at `off` (out-of-range bytes read as 0). -/
def readLE (bs : List Nat) (off n : Nat) : Nat :=
  (List.range n).foldr (fun i acc => acc * 256 + bs.getD (off + i) 0) 0

/-- `fst::Node::len` (`src/fst.rs:240`): the in-memory size of a record,
`4 (NodeOffset) [+ W if terminal] + 1 + key_len`, padded to `W`. -/
def recLen (W : Nat) (terminal : Bool) (len : Nat) : Nat :=
  let unaligned := if terminal then 4 + W + 1 + len else 4 + 1 + len
  unaligned + (W - unaligned % W)

/-- `Fst::get` (`src/fst.rs:88`): the sibling-walk loop, with fuel (the loop
need not terminate on malformed buffers; every use below supplies ample
fuel).  The `next_node: NodeOffset` field is a 4-byte `Option<NonZeroU32>`
regardless of `W`: `0` is `Empty` (return `None`), `u32::MAX` is
`Terminating` (the record carries a value at `valOff W`, and its fragment
starts after the value), anything else is `Offset` (fragment directly after
the 4 offset bytes).  After an `Incomplete`/`Exact` classification a
`Terminating` record returns its value; an `Offset` record restarts the walk
at the stored offset.  `none` models only fuel exhaustion. -/
def fstGetF (W : Nat) (bs : List Nat) : Nat → Key → Nat → Option (Option Nat)
  | 0, _, _ => none
  | fuel + 1, key, off =>
    let next := readLE bs off 4
    if next = 0 then some none
    else if next = 2 ^ 32 - 1 then
      let len := bs.getD (off + 4 + W) 0
      let frag := (bs.drop (off + 4 + W + 1)).take len
      let value := readLE bs (off + valOff W) W
      match findCommonPrefix frag key with
      | .noMatch _ => fstGetF W bs fuel key (off + recLen W true len)
      | .perfectSubset _ => fstGetF W bs fuel key (off + recLen W true len)
      | .divergent _ => fstGetF W bs fuel key (off + recLen W true len)
      | .incomplete _ => some (some value)
      | .exact => some (some value)
    else
      let len := bs.getD (off + 4) 0
      let frag := (bs.drop (off + 4 + 1)).take len
      match findCommonPrefix frag key with
      | .noMatch _ => fstGetF W bs fuel key (off + recLen W false len)
      | .perfectSubset _ => fstGetF W bs fuel key (off + recLen W false len)
      | .divergent _ => fstGetF W bs fuel key (off + recLen W false len)
      | .incomplete p => fstGetF W bs fuel (key.drop p) next
      | .exact => fstGetF W bs fuel [] next

def fstGet (W : Nat) (bs : List Nat) (key : Key) : Option (Option Nat) :=
  fstGetF W bs (bs.length + key.length + 1) key (4 + 4 % W)

/-! ### Executable canonical-order check (for claim C8) -/

def keyCmpLe (a b : Key) : Bool :=
  match keyCmp a b with
  | .gt => false
  | _ => true

def sortedChildrenB : List Node → Bool
  | [] => true
  | [_] => true
  | a :: b :: rest => keyCmpLe a.key b.key && sortedChildrenB (b :: rest)

mutual
/-- Every child list in the tree is sorted by `node::cmp` (descending
fragment length, then ascending lexicographic). -/
def allSortedN : Node → Bool
  | .value _ _ => true
  | .children _ cs => sortedChildrenB cs && allSortedL cs
def allSortedL : List Node → Bool
  | [] => true
  | c :: cs => allSortedN c && allSortedL cs
end

/-! ### Concrete counterexample and code-bug theorems -/

/-- C2 counterexample: insert the empty key (value 2), then `"a"` (value 1).
The last insert for the empty key is 2, but `get` of the empty key scans the
root children in canonical order, hits `"a"` first, classifies
`PerfectSubset(0)`, and returns `None`. -/
theorem c2_counterexample :
    lastAssoc [([], 2), ([97], 1)] [] = some 2 ∧
      (buildT [([], 2), ([97], 1)]).map (fun t => t.get []) =
        some (some none) ∧
      (some none : Option (Option Nat)) ≠ some (some 2) := by
  refine ⟨rfl, rfl, by decide⟩

/-- C4: inserting `"ab"` (1), `"abcd"` (2) and then `"ab"` (9) reaches the
`Exact` arm with a `Children`-bodied child `"ab"`; `set_value` panics
(`"set_value misused!"`) instead of ensuring an empty-fragment `Value`
child, so the third insert does not return. -/
theorem c4_insert_panics :
    buildT [([97, 98], 1), ([97, 98, 99, 100], 2), ([97, 98], 9)] = none ∧
      (buildT [([97, 98], 1), ([97, 98, 99, 100], 2)]).isSome = true := by
  exact ⟨rfl, rfl⟩

/-- C8 counterexample: insert `"abcd"`, `"xyz"`, `"ab"`.  The third insert
splits the child `"abcd"` in place (`PerfectSubset`), shortening its
fragment to `"ab"` without re-sorting the root's children, so the root child
list is `["ab", "xyz"]` — not in canonical (length-descending) order. -/
theorem c8_counterexample :
    (buildT [([97, 98, 99, 100], 1), ([120, 121, 122], 2), ([97, 98], 3)]).map
        (fun t => allSortedN t.root) = some false := rfl

/-- C5 counterexample: a 4-byte buffer with correct magic and alignment but
version byte 7 is accepted — `Fst::new` never compares the version byte. -/
theorem c5_counterexample :
    fstNew 4 [0xFF, 0xDF, 7, 4] = .ok () := rfl

/-- C6 counterexample: (i) a trie holding a single 256-byte key makes
`write_fst` panic (the `expect` on `key.len().try_into()`), modelled as
`none` — no `KeyTooLong` error value is returned (none exists in the code);
(ii) a trie that does contain a 256-byte key but whose fragments are all
short (the key is split by a sibling) writes successfully, so "containing a
long key" does not even imply failure. -/
theorem c6_counterexample :
    (buildT [(List.replicate 256 7, 1)]).map (writeFst 4) = some none ∧
      (buildT [(List.replicate 256 7, 1), (List.replicate 128 7 ++ [9], 2)]).map
          (fun t => (writeFst 4 t).isSome) = some true := by
  exact ⟨rfl, rfl⟩

/-- C9 counterexample: (i) at `W = 16` even the empty trie's single record
sits at offset 8, which is not a multiple of 16 (the header pad is
`4 % W = 4` bytes, not `(W - 4) % W`); (ii) at `W = 8` the terminal record
for `"a" ↦ 1` has bytes `FF FF FF FF 01 00 00 00` at offsets 8..16: the
`next_offset` sentinel is the 4-byte `NodeOffset`, not a `W`-byte field. -/
theorem c9_counterexample :
    ((writeFst 16 PathTrie.new).map (fun r => r.2) = some [8] ∧ ¬ (16 ∣ 8)) ∧
      (buildT [([97], 1)]).map
          (fun t => (writeFst 8 t).map (fun r => (r.1.drop 8).take 8)) =
        some (some [255, 255, 255, 255, 1, 0, 0, 0]) := by
  refine ⟨⟨rfl, by decide⟩, rfl⟩

/-- C1: round-trip failure at width 8 (`u64`).  The writer places the value
immediately after the 4-byte `NodeOffset`; the reader reads `raw_value` at
the `repr(C)` field offset 8.  For the single insert `"a" ↦ 1` the reader
returns the bytes `[value[4..8], key_len, 'a', pad]` interpreted as a little-
endian `u64` — `106656922861568`, not `1`. -/
theorem c1_roundtrip_fails :
    ((buildT [([97], 1)]).bind fun t =>
        (writeFst 8 t).map fun r => (t.get [97], fstGet 8 r.1 [97])) =
      some (some (some 1), some (some 106656922861568)) ∧
      (106656922861568 : Nat) ≠ 1 := by
  exact ⟨rfl, by decide⟩

/-- C3: on `Incomplete` at a terminal record the reader returns that
record's value instead of moving to the next sibling: with only `"a" ↦ 1`
written (width 4), looking up the strict extension `"ax"` yields `Some 1`
from the reader, while the trie itself returns `None`. -/
theorem c3_reader_returns_value_on_incomplete_terminal :
    ((buildT [([97], 1)]).bind fun t =>
        (writeFst 4 t).map fun r => (t.get [97, 120], fstGet 4 r.1 [97, 120])) =
      some (some none, some (some 1)) := rfl

/-- C7 counterexample: `classify([], [0]) = Incomplete 0`, not `NoMatch`,
although `[]` and `[0]` share no non-empty common prefix (exactly one of the
two inputs is empty). -/
theorem c7_counterexample :
    findCommonPrefix [] [0] = .incomplete 0 ∧
      ∀ o : Ordering, findCommonPrefix [] [0] ≠ .noMatch o := by
  refine ⟨rfl, fun o h => ?_⟩
  rw [show findCommonPrefix [] [0] = .incomplete 0 from rfl] at h
  exact Prefix.noConfusion h

/-- C7 amended: `classify(x, y) = NoMatch(ord)` iff both inputs are
non-empty and their first bytes differ (i.e. they share no non-empty common
prefix *and* neither is empty), with `ord = cmp(x, y)` lexicographically.
When exactly one input is empty the result is `Incomplete 0` (`x` empty) or
`PerfectSubset 0` (`y` empty), never `NoMatch`. -/
theorem c7_amended (x y : Key) (o : Ordering) :
    (findCommonPrefix x y = .noMatch o ↔
      (x ≠ [] ∧ y ≠ [] ∧ x.head? ≠ y.head? ∧ o = cmpBytes x y)) ∧
    (x = [] → y ≠ [] → findCommonPrefix x y = .incomplete 0) ∧
    (x ≠ [] → y = [] → findCommonPrefix x y = .perfectSubset 0) := by
  refine ⟨findCommonPrefix_noMatch_iff, fun hx hy => ?_, fun hx hy => ?_⟩
  · subst hx
    exact findCommonPrefix_incomplete_iff.mpr
      ⟨List.nil_prefix, by
        cases y with
        | nil => exact absurd rfl hy
        | cons a as => simp, rfl⟩
  · subst hy
    exact findCommonPrefix_perfectSubset_iff.mpr
      ⟨List.nil_prefix, by
        cases x with
        | nil => exact absurd rfl hx
        | cons a as => simp, rfl⟩

/-- C5 amended: full characterisation of `Fst::new`.  `TooSmall` iff the
buffer is shorter than the 4-byte header; `InvalidMagicBytes` carries the
found bytes; `InvalidAlignment` carries `(found, expected)`; and the
constructor succeeds iff length, magic and alignment are right — the
version byte is never examined. -/
theorem c5_amended (W : Nat) (data : List Nat) :
    (fstNew W data = .error .tooSmall ↔ data.length < 4) ∧
    (∀ b0 b1, fstNew W data = .error (.invalidMagicBytes b0 b1) ↔
      (4 ≤ data.length ∧ ¬(data.getD 0 0 = 0xFF ∧ data.getD 1 0 = 0xDF) ∧
        b0 = data.getD 0 0 ∧ b1 = data.getD 1 0)) ∧
    (∀ f e, fstNew W data = .error (.invalidAlignment f e) ↔
      (4 ≤ data.length ∧ data.getD 0 0 = 0xFF ∧ data.getD 1 0 = 0xDF ∧
        data.getD 3 0 ≠ W ∧ f = data.getD 3 0 ∧ e = W)) ∧
    (fstNew W data = .ok () ↔
      (4 ≤ data.length ∧ data.getD 0 0 = 0xFF ∧ data.getD 1 0 = 0xDF ∧
        data.getD 3 0 = W)) := by
  by_cases h1 : data.length < 4
  · have hres : fstNew W data = .error .tooSmall := by
      unfold fstNew
      rw [if_pos h1]
    rw [hres]
    refine ⟨⟨fun _ => h1, fun _ => rfl⟩, fun b0 b1 => ?_, fun f e => ?_, ?_⟩
    · exact ⟨fun h => by simp at h, fun h => absurd h.1 (by omega)⟩
    · exact ⟨fun h => by simp at h, fun h => absurd h.1 (by omega)⟩
    · exact ⟨fun h => by simp at h, fun h => absurd h.1 (by omega)⟩
  · by_cases h2 : data.getD 0 0 = 0xFF ∧ data.getD 1 0 = 0xDF
    · by_cases h3 : data.getD 3 0 = W
      · have hres : fstNew W data = .ok () := by
          unfold fstNew
          rw [if_neg h1, if_neg (not_not_intro h2), if_neg (not_not_intro h3)]
        rw [hres]
        refine ⟨⟨fun h => by simp at h, fun h => absurd h1 (by omega)⟩,
          fun b0 b1 => ⟨fun h => by simp at h, fun h => absurd h2 h.2.1⟩,
          fun f e => ⟨fun h => by simp at h, fun h => absurd h3 h.2.2.2.1⟩,
          ⟨fun _ => ⟨by omega, h2.1, h2.2, h3⟩, fun _ => rfl⟩⟩
      · have hres : fstNew W data =
            .error (.invalidAlignment (data.getD 3 0) W) := by
          unfold fstNew
          rw [if_neg h1, if_neg (not_not_intro h2), if_pos h3]
        rw [hres]
        refine ⟨⟨fun h => by simp at h, fun h => absurd h1 (by omega)⟩,
          fun b0 b1 => ⟨fun h => by simp at h, fun h => absurd h2 h.2.1⟩,
          fun f e => ⟨?_, ?_⟩,
          ⟨fun h => by simp at h, fun h => absurd h.2.2.2 h3⟩⟩
        · intro h
          have h' := h
          simp only [Except.error.injEq, FstError.invalidAlignment.injEq] at h'
          exact ⟨by omega, h2.1, h2.2, h3, h'.1.symm, h'.2.symm⟩
        · intro h
          rw [h.2.2.2.2.1, h.2.2.2.2.2]
    · have hres : fstNew W data =
          .error (.invalidMagicBytes (data.getD 0 0) (data.getD 1 0)) := by
        unfold fstNew
        rw [if_neg h1, if_pos h2]
      rw [hres]
      refine ⟨⟨fun h => by simp at h, fun h => absurd h1 (by omega)⟩,
        fun b0 b1 => ⟨?_, ?_⟩,
        fun f e => ⟨fun h => by simp at h, fun h => absurd ⟨h.2.1, h.2.2.1⟩ h2⟩,
        ⟨fun h => by simp at h, fun h => absurd ⟨h.2.1, h.2.2.1⟩ h2⟩⟩
      · intro h
        have h' := h
        simp only [Except.error.injEq, FstError.invalidMagicBytes.injEq] at h'
        exact ⟨by omega, h2, h'.1.symm, h'.2.symm⟩
      · intro h
        rw [h.2.2.1, h.2.2.2]

/-! ### Order facts about `node::cmp` and the sort -/

theorem cmpBytes_swap (a b : Key) : cmpBytes b a = (cmpBytes a b).swap := by
  induction a generalizing b with
  | nil => cases b <;> simp [cmpBytes, Ordering.swap]
  | cons x as ih =>
    cases b with
    | nil => simp [cmpBytes, Ordering.swap]
    | cons y bs =>
      by_cases hxy : x < y
      · have : ¬ y < x := by omega
        simp [cmpBytes, hxy, this, Ordering.swap]
      · by_cases hyx : y < x
        · simp [cmpBytes, hxy, hyx, Ordering.swap]
        · simp [cmpBytes, hxy, hyx, ih]

theorem keyCmp_gt_asymm {a b : Key} (h : keyCmp a b = .gt) : keyCmp b a ≠ .gt := by
  unfold keyCmp at h ⊢
  rcases hc : compare b.length a.length with _ | _ | _ <;> simp [hc] at h ⊢
  · rw [Nat.compare_eq_eq] at hc
    have hc' : compare a.length b.length = .eq := by
      rw [Nat.compare_eq_eq]; omega
    simp [hc', cmpBytes_swap a b, h, Ordering.swap]
  · rw [Nat.compare_eq_gt] at hc
    have hc' : compare a.length b.length = .lt := by
      rw [Nat.compare_eq_lt]; omega
    simp [hc']

/-- `keyCmp x [] ≠ .gt` forces `x = []`: the empty fragment is strictly
maximal in the canonical order. -/
theorem eq_nil_of_keyCmp_nil_ne_gt {k : Key} (h : keyCmp [] k ≠ .gt) : k = [] := by
  cases k with
  | nil => rfl
  | cons a as =>
    exfalso
    apply h
    unfold keyCmp
    have : compare (a :: as).length ([] : Key).length = .gt := by
      rw [Nat.compare_eq_gt]; simp
    rw [this]

def NodeLE (c d : Node) : Prop := keyCmp c.key d.key ≠ .gt

theorem nodeLE_total (c d : Node) : NodeLE c d ∨ NodeLE d c := by
  by_cases h : keyCmp c.key d.key = .gt
  · exact Or.inr (keyCmp_gt_asymm h)
  · exact Or.inl h

theorem insSorted_perm (n : Node) (l : List Node) :
    List.Perm (insSorted n l) (n :: l) := by
  induction l with
  | nil => simp [insSorted]
  | cons m ms ih =>
    unfold insSorted
    rcases h : keyCmp n.key m.key with _ | _ | _
    · exact List.Perm.refl _
    · exact List.Perm.refl _
    · exact ((ih.cons m).trans (List.Perm.swap n m ms))

theorem sortNodes_perm (l : List Node) : List.Perm (sortNodes l) l := by
  induction l with
  | nil => exact List.Perm.refl _
  | cons n ns ih =>
    exact (insSorted_perm n (sortNodes ns)).trans (ih.cons n)

theorem insSorted_head_rel (x n : Node) (l : List Node) (hxn : NodeLE x n)
    (hxl : ∀ y ∈ l.head?, NodeLE x y) :
    ∀ y ∈ (insSorted n l).head?, NodeLE x y := by
  cases l with
  | nil =>
    intro y hy
    simp [insSorted] at hy
    subst hy
    exact hxn
  | cons m ms =>
    unfold insSorted
    rcases hc : keyCmp n.key m.key with _ | _ | _ <;> intro y hy <;> simp at hy
    · exact hy ▸ hxn
    · exact hy ▸ hxn
    · exact hy ▸ hxl m (by simp)

theorem insSorted_chain (n : Node) (l : List Node)
    (h : l.Chain' NodeLE) : (insSorted n l).Chain' NodeLE := by
  induction l with
  | nil => simp [insSorted]
  | cons m ms ih =>
    unfold insSorted
    rcases hc : keyCmp n.key m.key with _ | _ | _
    · exact List.Chain'.cons (by simp [NodeLE, hc]) h
    · exact List.Chain'.cons (by simp [NodeLE, hc]) h
    · rw [List.chain'_cons'] at h ⊢
      exact ⟨insSorted_head_rel m n ms (keyCmp_gt_asymm hc) h.1, ih h.2⟩

theorem sortNodes_chain (l : List Node) : (sortNodes l).Chain' NodeLE := by
  induction l with
  | nil => simp [sortNodes]
  | cons n ns ih => exact insSorted_chain n (sortNodes ns) ih

/-! ### The well-formedness invariant of reachable tries -/

def isEmptyKey (c : Node) : Bool := decide (c.key = [])

/-- Every child with a successor has a non-empty fragment: an empty-fragment
child, when present, is last. -/
def EmptyLast (cs : List Node) : Prop := cs.Pairwise (fun c _ => c.key ≠ [])

/-- Two non-empty sibling fragments never share their first byte (no two
children share a non-empty common prefix). -/
def HeadRel (c d : Node) : Prop :=
  c.key ≠ [] → d.key ≠ [] → c.key.head? ≠ d.key.head?

def HeadsDistinct (cs : List Node) : Prop := cs.Pairwise HeadRel

/-- Empty-fragment children are `Value`-bodied. -/
def EmptiesAreValues (cs : List Node) : Prop :=
  ∀ c ∈ cs, c.key = [] → ∃ v, c = Node.value [] v

/-- Well-formedness of the trie below a node, established for every trie
reachable from `new()` by normally-returning inserts of non-empty keys. -/
inductive WFN : Node → Prop where
  | value (k : Key) (v : Nat) : WFN (.value k v)
  | children (k : Key) (cs : List Node)
      (hel : EmptyLast cs) (hhd : HeadsDistinct cs)
      (hev : EmptiesAreValues cs) (hwf : ∀ c ∈ cs, WFN c) :
      WFN (.children k cs)

theorem headRel_symm : ∀ {c d : Node}, HeadRel c d → HeadRel d c :=
  fun h hd hc => (h hc hd).symm

theorem nodeLE_nil {c d : Node} (h : NodeLE c d) (hc : c.key = []) :
    d.key = [] := by
  unfold NodeLE at h
  rw [hc] at h
  exact eq_nil_of_keyCmp_nil_ne_gt h

theorem emptyLast_count {cs : List Node} (h : EmptyLast cs) :
    cs.countP isEmptyKey ≤ 1 := by
  induction cs with
  | nil => simp
  | cons c rest ih =>
    unfold EmptyLast at h
    rw [List.pairwise_cons] at h
    cases rest with
    | nil =>
      rw [List.countP_cons]
      simp
      split_ifs <;> simp
    | cons d rest' =>
      have hc : c.key ≠ [] := h.1 d (by simp)
      rw [List.countP_cons]
      have hf : isEmptyKey c = false := by simp [isEmptyKey, hc]
      rw [hf]
      simpa using ih h.2

theorem chain_count_emptyLast {cs : List Node} (hc : cs.Chain' NodeLE)
    (hn : cs.countP isEmptyKey ≤ 1) : EmptyLast cs := by
  induction cs with
  | nil => exact List.Pairwise.nil
  | cons c rest ih =>
    rw [List.chain'_cons'] at hc
    have hrest : rest.countP isEmptyKey ≤ 1 := by
      rw [List.countP_cons] at hn
      omega
    refine List.pairwise_cons.mpr ⟨?_, ih hc.2 hrest⟩
    intro d hd hcnil
    cases rest with
    | nil => simp at hd
    | cons e rest' =>
      have he : e.key = [] := nodeLE_nil (hc.1 e (by simp)) hcnil
      have h1 : isEmptyKey c = true := by simp [isEmptyKey, hcnil]
      have h2 : isEmptyKey e = true := by simp [isEmptyKey, he]
      rw [List.countP_cons, List.countP_cons, h1, h2] at hn
      simp at hn

theorem emptyLast_sortNodes {l : List Node} (hc : l.countP isEmptyKey ≤ 1) :
    EmptyLast (sortNodes l) :=
  chain_count_emptyLast (sortNodes_chain l)
    (by rw [(sortNodes_perm l).countP_eq]; exact hc)

theorem headsDistinct_sortNodes {l : List Node} (h : HeadsDistinct l) :
    HeadsDistinct (sortNodes l) :=
  (List.Perm.pairwise_iff (fun hr => headRel_symm hr) (sortNodes_perm l)).mpr h

theorem emptiesAreValues_of_subset {l l' : List Node}
    (hsub : ∀ c ∈ l', c ∈ l) (h : EmptiesAreValues l) : EmptiesAreValues l' :=
  fun c hc => h c (hsub c hc)

theorem pairwise_set_left {P : Node → Prop} {cs : List Node} {i : Nat}
    {c' : Node} (h : cs.Pairwise (fun c _ => P c)) (hc : P c') :
    (cs.set i c').Pairwise (fun c _ => P c) := by
  induction cs generalizing i with
  | nil => exact List.Pairwise.nil
  | cons c rest ih =>
    rw [List.pairwise_cons] at h
    cases i with
    | zero =>
      rw [List.set_cons_zero, List.pairwise_cons]
      exact ⟨fun _ _ => hc, h.2⟩
    | succ j =>
      rw [List.set_cons_succ, List.pairwise_cons]
      refine ⟨?_, ih h.2⟩
      intro d hd
      have hne : rest ≠ [] := by
        intro hnil
        rw [hnil] at hd
        simp at hd
      obtain ⟨d0, hd0⟩ := List.exists_mem_of_ne_nil rest hne
      exact h.1 d0 hd0

theorem pairwise_set_congr {R : Node → Node → Prop} {cs : List Node}
    {i : Nat} {c' : Node} (h : cs.Pairwise R)
    (hfwd : ∀ d, R (cs.getD i default) d → R c' d)
    (hbwd : ∀ d, R d (cs.getD i default) → R d c') :
    (cs.set i c').Pairwise R := by
  induction cs generalizing i with
  | nil => exact List.Pairwise.nil
  | cons c rest ih =>
    rw [List.pairwise_cons] at h
    cases i with
    | zero =>
      rw [List.set_cons_zero, List.pairwise_cons]
      refine ⟨fun d hd => hfwd d (by simpa using h.1 d hd), h.2⟩
    | succ j =>
      rw [List.set_cons_succ, List.pairwise_cons]
      refine ⟨?_, ih h.2 (fun d hr => hfwd d (by simpa using hr))
        (fun d hr => hbwd d (by simpa using hr))⟩
      intro d hd
      rcases List.mem_or_eq_of_mem_set hd with hd' | hd'
      · exact h.1 d hd'
      · by_cases hj : j < rest.length
        · rw [hd']
          refine hbwd c ?_
          show R c ((c :: rest).getD (j + 1) default)
          have hg : (c :: rest).getD (j + 1) default = rest.getD j default := rfl
          rw [hg]
          refine h.1 _ ?_
          rw [List.getD_eq_getElem rest default hj]
          exact List.getElem_mem hj
        · have hset : rest.set j c' = rest :=
            List.set_eq_of_length_le (by omega)
          rw [hset] at hd
          exact h.1 d hd

/-! ### Reference semantics: the finite map a trie denotes

`semF cs k` scans the children in order and returns the value stored for the
remaining key `k`: a `Value` child matches when its fragment equals `k`, a
`Children` child matches when its fragment is a prefix of `k`, recursing on
the rest.  Under the well-formedness invariant at most one child matches, so
the scan order is irrelevant. -/

mutual
def semN : Node → Key → Option Nat
  | .value ck v, k => if k = ck then some v else none
  | .children ck cs, k =>
    if ck.isPrefixOf k then semF cs (k.drop ck.length) else none
def semF : List Node → Key → Option Nat
  | [], _ => none
  | c :: cs, k =>
    match semN c k with
    | some v => some v
    | none => semF cs k
end

/-- Semantics of a node's body, with the node's own fragment already
consumed. -/
def semB : Node → Key → Option Nat
  | .value _ v, k => if k = [] then some v else none
  | .children _ cs, k => semF cs k

theorem prefix_head {l₁ l₂ : Key} (h : l₁ <+: l₂) (hne : l₁ ≠ []) :
    l₁.head? = l₂.head? := by
  obtain ⟨t, rfl⟩ := h
  cases l₁ with
  | nil => exact absurd rfl hne
  | cons a as => rfl

theorem semN_of_prefix {c : Node} {k : Key} (h : c.key <+: k) :
    semN c k = semB c (k.drop c.key.length) := by
  obtain ⟨t, ht⟩ := h
  cases c with
  | value ck v =>
    subst ht
    have hdrop : (ck ++ t).drop ck.length = t := List.drop_left ck t
    simp only [semN, semB, Node.key, hdrop]
    by_cases hteq : t = []
    · simp [hteq]
    · have hne : ¬ (ck ++ t = ck) := by
        intro hh
        apply hteq
        have hlen := congrArg List.length hh
        simp at hlen
        exact hlen
      simp [hne, hteq]
  | children ck cs =>
    subst ht
    have hdrop : (ck ++ t).drop ck.length = t := List.drop_left ck t
    have hpre : ck.isPrefixOf (ck ++ t) = true :=
      List.isPrefixOf_iff_prefix.mpr ⟨t, rfl⟩
    simp only [semN, semB, Node.key, hdrop, hpre, if_true]

theorem semN_of_not_prefix {c : Node} {k : Key} (h : ¬ c.key <+: k) :
    semN c k = none := by
  cases c with
  | value ck v =>
    have hne : ¬ (k = ck) := fun hh => h (hh ▸ List.prefix_rfl)
    simp [semN, hne]
  | children ck cs =>
    have hb : ck.isPrefixOf k = false := by
      rw [Bool.eq_false_iff]
      intro hh
      exact h (List.isPrefixOf_iff_prefix.mp hh)
    simp [semN, hb]

theorem matcher_prefix {c : Node} {k : Key} (h : semN c k ≠ none) :
    c.key <+: k := by
  by_contra hc
  exact h ( semN_of_not_prefix hc)

theorem semN_none_of_noMatch {c : Node} {k : Key} {o : Ordering}
    (h : findCommonPrefix c.key k = .noMatch o) : semN c k = none := by
  obtain ⟨h1, h2, h3, -⟩ := findCommonPrefix_noMatch_iff.mp h
  apply semN_of_not_prefix
  intro hp
  exact h3 (prefix_head hp h1)

theorem semF_eq_none_iff {cs : List Node} {k : Key} :
    semF cs k = none ↔ ∀ c ∈ cs, semN c k = none := by
  induction cs with
  | nil => simp [semF]
  | cons c rest ih =>
    unfold semF
    rcases h : semN c k with _ | v
    · simp only [ih]
      constructor
      · intro hall d hd
        rcases List.mem_cons.mp hd with hd' | hd'
        · rw [hd']; exact h
        · exact hall d hd'
      · intro hall d hd
        exact hall d (by simp [hd])
    · constructor
      · intro hh; cases hh
      · intro hall
        exact absurd h (by rw [hall c (by simp)]; simp)

theorem semF_some_mem {cs : List Node} {k : Key} {v : Nat}
    (h : semF cs k = some v) : ∃ c ∈ cs, semN c k = some v := by
  induction cs with
  | nil => simp [semF] at h
  | cons c rest ih =>
    unfold semF at h
    rcases hc : semN c k with _ | w
    · rw [hc] at h
      obtain ⟨d, hd, hdv⟩ := ih h
      exact ⟨d, by simp [hd], hdv⟩
    · rw [hc] at h
      cases h
      exact ⟨c, by simp, hc⟩

theorem semF_congr_map {cs cs' : List Node} {k : Key}
    (h : cs.map (fun c => semN c k) = cs'.map (fun c => semN c k)) :
    semF cs k = semF cs' k := by
  induction cs generalizing cs' with
  | nil =>
    cases cs' with
    | nil => rfl
    | cons _ _ => simp at h
  | cons c rest ih =>
    cases cs' with
    | nil => simp at h
    | cons c' rest' =>
      simp only [List.map_cons, List.cons.injEq] at h
      unfold semF
      rw [h.1, ih h.2]

theorem semF_first {cs : List Node} {k : Key} {i : Nat} {c : Node} {v : Nat}
    (hget : ∀ j, j < i → ∀ d, cs.get? j = some d → semN d k = none)
    (hi : cs.get? i = some c) (hv : semN c k = some v) :
    semF cs k = some v := by
  induction cs generalizing i with
  | nil => simp at hi
  | cons c0 rest ih =>
    cases i with
    | zero =>
      simp at hi
      subst hi
      unfold semF
      rw [hv]
    | succ j =>
      have h0 : semN c0 k = none := hget 0 (Nat.succ_pos j) c0 rfl
      unfold semF
      rw [h0]
      exact ih (fun m hm d hd => hget (m + 1) (by omega) d hd) hi

def UniqPos (cs : List Node) (k : Key) : Prop :=
  ∀ j₁ c₁ j₂ c₂, cs.get? j₁ = some c₁ → cs.get? j₂ = some c₂ →
    semN c₁ k ≠ none → semN c₂ k ≠ none → j₁ = j₂

theorem semF_of_uniq {cs : List Node} {k : Key} {j : Nat} {c : Node} {v : Nat}
    (hu : UniqPos cs k) (hj : cs.get? j = some c) (hv : semN c k = some v) :
    semF cs k = some v := by
  refine semF_first (fun m hm d hd => ?_) hj hv
  by_contra hne
  have hmj := hu m d j c hd hj hne (by rw [hv]; simp)
  omega

theorem semF_perm {cs cs' : List Node} {k : Key} (hp : List.Perm cs cs')
    (hu' : UniqPos cs' k) : semF cs k = semF cs' k := by
  rcases hr : semF cs k with _ | v
  · rw [semF_eq_none_iff] at hr
    symm
    rw [semF_eq_none_iff]
    exact fun c hc => hr c (hp.mem_iff.mpr hc)
  · obtain ⟨c, hc, hcv⟩ := semF_some_mem hr
    have hc' : c ∈ cs' := hp.mem_iff.mp hc
    obtain ⟨j, hj⟩ := List.mem_iff_get?.mp hc'
    exact (semF_of_uniq hu' hj hcv).symm

theorem wf_uniqPos {cs : List Node} (hel : EmptyLast cs)
    (hhd : HeadsDistinct cs) (hev : EmptiesAreValues cs) (k : Key) :
    UniqPos cs k := by
  have main : ∀ j₁ c₁ j₂ c₂, j₁ < j₂ → cs.get? j₁ = some c₁ →
      cs.get? j₂ = some c₂ → semN c₁ k ≠ none → semN c₂ k ≠ none → False := by
    intro j₁ c₁ j₂ c₂ hlt h₁ h₂ hm₁ hm₂
    obtain ⟨hb₁, hg₁⟩ := List.get?_eq_some.mp h₁
    obtain ⟨hb₂, hg₂⟩ := List.get?_eq_some.mp h₂
    have hp₁ : c₁.key <+: k := matcher_prefix hm₁
    have hp₂ : c₂.key <+: k := matcher_prefix hm₂
    by_cases he₁ : c₁.key = []
    · have hrel := List.pairwise_iff_get.mp hel ⟨j₁, hb₁⟩ ⟨j₂, hb₂⟩ hlt
      rw [hg₁] at hrel
      exact hrel he₁
    · by_cases he₂ : c₂.key = []
      · obtain ⟨v₂, hv₂⟩ := hev c₂ (List.get?_mem h₂) he₂
        have hknil : k = [] := by
          by_contra hk
          apply hm₂
          rw [hv₂]
          simp [semN, hk]
        subst hknil
        exact he₁ (List.prefix_nil.mp hp₁)
      · have hk : k ≠ [] := by
          intro hk
          subst hk
          exact he₁ (List.prefix_nil.mp hp₁)
        have hh₁ : c₁.key.head? = k.head? := prefix_head hp₁ he₁
        have hh₂ : c₂.key.head? = k.head? := prefix_head hp₂ he₂
        have hrel := List.pairwise_iff_get.mp hhd ⟨j₁, hb₁⟩ ⟨j₂, hb₂⟩ hlt
        rw [hg₁, hg₂] at hrel
        exact hrel he₁ he₂ (hh₁.trans hh₂.symm)
  intro j₁ c₁ j₂ c₂ h₁ h₂ hm₁ hm₂
  rcases Nat.lt_trichotomy j₁ j₂ with h | h | h
  · exact absurd (main j₁ c₁ j₂ c₂ h h₁ h₂ hm₁ hm₂) not_false
  · exact h
  · exact absurd (main j₂ c₂ j₁ c₁ h h₂ h₁ hm₂ hm₁) not_false

/-! ### Specification of the child scan `find_prefix` -/

theorem getD_of_get? {cs : List Node} {i : Nat} {c : Node}
    (h : cs.get? i = some c) : cs.getD i default = c := by
  obtain ⟨hb, hg⟩ := List.get?_eq_some.mp h
  rw [List.getD_eq_getElem cs default hb]
  rw [← hg]
  simp

theorem findPrefixAux_none {key : Key} : ∀ {cs : List Node} {j : Nat},
    findPrefixAux key cs j = none →
    ∀ c ∈ cs, ∃ o, findCommonPrefix c.key key = .noMatch o := by
  intro cs
  induction cs with
  | nil =>
    intro j _ c hc
    simp at hc
  | cons c0 rest ih =>
    intro j h c hc
    unfold findPrefixAux at h
    rcases hcl : findCommonPrefix c0.key key with o | p | p | p | _
    all_goals rw [hcl] at h
    · rcases List.mem_cons.mp hc with hc' | hc'
      · exact ⟨o, hc' ▸ hcl⟩
      · exact ih h c hc'
    all_goals cases h

theorem findPrefixAux_some {key : Key} : ∀ {cs : List Node} {j i : Nat}
    {p : Prefix}, findPrefixAux key cs j = some (i, p) →
    j ≤ i ∧ ∃ c, cs.get? (i - j) = some c ∧ findCommonPrefix c.key key = p ∧
      (∀ o, p ≠ .noMatch o) ∧
      (∀ m d, m < i - j → cs.get? m = some d →
        ∃ o, findCommonPrefix d.key key = .noMatch o) := by
  intro cs
  induction cs with
  | nil =>
    intro j i p h
    simp [findPrefixAux] at h
  | cons c0 rest ih =>
    intro j i p h
    unfold findPrefixAux at h
    rcases hcl : findCommonPrefix c0.key key with o | q | q | q | _
    all_goals rw [hcl] at h
    · obtain ⟨hji, c, hc, hcp, hnm, hpre⟩ := ih h
      refine ⟨by omega, c, ?_, hcp, hnm, ?_⟩
      · have hidx : i - j = (i - (j + 1)) + 1 := by omega
        rw [hidx]
        simpa using hc
      · intro m d hm hd
        cases m with
        | zero =>
          simp at hd
          exact ⟨o, hd ▸ hcl⟩
        | succ m' =>
          refine hpre m' d (by omega) ?_
          simpa using hd
    · cases h
      exact ⟨Nat.le_refl j, c0, by simp, hcl, (by intro o h'; cases h'),
        (by intro m d hm hd; omega)⟩
    · cases h
      exact ⟨Nat.le_refl j, c0, by simp, hcl, (by intro o h'; cases h'),
        (by intro m d hm hd; omega)⟩
    · cases h
      exact ⟨Nat.le_refl j, c0, by simp, hcl, (by intro o h'; cases h'),
        (by intro m d hm hd; omega)⟩
    · cases h
      exact ⟨Nat.le_refl j, c0, by simp, hcl, (by intro o h'; cases h'),
        (by intro m d hm hd; omega)⟩

theorem findPrefixAux_exact {key : Key} : ∀ {cs : List Node} {j i : Nat},
    findPrefixAux key cs j = some (i, .exact) →
    ∃ c, cs.get? (i - j) = some c ∧ findCommonPrefix c.key key = .exact := by
  intro cs j i h
  obtain ⟨_, c, hc, hcp, _, _⟩ := findPrefixAux_some h
  exact ⟨c, hc, hcp⟩

/-- Summary of `find_prefix` on a `Children`-bodied node. -/
theorem findPrefix_some {k0 : Key} {cs : List Node} {key : Key} {i : Nat}
    {p : Prefix} (h : findPrefix (.children k0 cs) key = some (i, p)) :
    ∃ c, cs.get? i = some c ∧ findCommonPrefix c.key key = p ∧
      (∀ o, p ≠ .noMatch o) ∧
      (∀ m d, m < i → cs.get? m = some d →
        ∃ o, findCommonPrefix d.key key = .noMatch o) := by
  unfold findPrefix at h
  obtain ⟨-, c, hc, hcp, hnm, hpre⟩ := findPrefixAux_some h
  rw [Nat.sub_zero] at hc
  refine ⟨c, hc, hcp, hnm, ?_⟩
  intro m d hm hd
  exact hpre m d (by omega) hd

theorem findPrefix_none {k0 : Key} {cs : List Node} {key : Key}
    (h : findPrefix (.children k0 cs) key = none) :
    ∀ c ∈ cs, ∃ o, findCommonPrefix c.key key = .noMatch o := by
  unfold findPrefix at h
  exact findPrefixAux_none h

theorem findPrefix_value {k0 : Key} {v : Nat} {key : Key} :
    findPrefix (.value k0 v) key = none := rfl

/-! ### Fuel elimination and step equations for `insert_inner` and `walk` -/

theorem insertInnerF_push {fuel : Nat} {n : Node} {key : Key} {v : Nat}
    (h : findPrefix n key = none) :
    insertInnerF (fuel + 1) n key v = some (n.push (.value key v)) := by
  unfold insertInnerF
  rw [h]
  cases n <;> rfl

theorem insertInnerF_push0 {fuel : Nat} {n : Node} {key : Key} {v i : Nat}
    (h : findPrefix n key = some (i, .incomplete 0)) :
    insertInnerF (fuel + 1) n key v = some (n.push (.value key v)) := by
  unfold insertInnerF
  rw [h]
  cases n <;> rfl

theorem insertInnerF_incS {fuel : Nat} {k0 key : Key} {cs : List Node}
    {i q v : Nat}
    (h : findPrefix (.children k0 cs) key = some (i, .incomplete (q + 1))) :
    insertInnerF (fuel + 1) (.children k0 cs) key v =
      (insertInnerF fuel (cs.getD i default) (key.drop (q + 1)) v).map
        (fun c' => Node.children k0 (cs.set i c')) := by
  conv_lhs => unfold insertInnerF
  rw [h]

theorem insertInnerF_perfect {fuel : Nat} {k0 key : Key} {cs : List Node}
    {i p v : Nat}
    (h : findPrefix (.children k0 cs) key = some (i, .perfectSubset p)) :
    insertInnerF (fuel + 1) (.children k0 cs) key v =
      (let c := cs.getD i default
       let tailNode : Node :=
         match c with
         | .value ck v0 => .value (ck.drop p) v0
         | .children ck ch => .children (ck.drop p) ch
       let c' := (Node.value (c.key.take p) v).push tailNode
       some (Node.children k0 (cs.set i c'))) := by
  conv_lhs => unfold insertInnerF
  rw [h]

theorem insertInnerF_divergent {fuel : Nat} {k0 key : Key} {cs : List Node}
    {i p v : Nat}
    (h : findPrefix (.children k0 cs) key = some (i, .divergent p)) :
    insertInnerF (fuel + 1) (.children k0 cs) key v =
      some ((Node.children k0 cs).diverge i p key v) := by
  conv_lhs => unfold insertInnerF
  rw [h]

theorem insertInnerF_exact {fuel : Nat} {k0 key : Key} {cs : List Node}
    {i v : Nat}
    (h : findPrefix (.children k0 cs) key = some (i, .exact)) :
    insertInnerF (fuel + 1) (.children k0 cs) key v =
      ((cs.getD i default).setValue v).map
        (fun c' => Node.children k0 (cs.set i c')) := by
  conv_lhs => unfold insertInnerF
  rw [h]

theorem incomplete_facts {c : Node} {key : Key} {q : Nat}
    (h : findCommonPrefix c.key key = .incomplete q) :
    c.key <+: key ∧ c.key.length < key.length ∧ q = c.key.length :=
  findCommonPrefix_incomplete_iff.mp h

theorem insertInnerF_fuel : ∀ (f : Nat), ∀ (key : Key) (n : Node) (v : Nat),
    key.length + 1 ≤ f → insertInnerF f n key v = insertInner n key v := by
  intro f
  induction f using Nat.strong_induction_on with
  | _ f ih =>
    intro key n v hf
    obtain ⟨f', rfl⟩ : ∃ f', f = f' + 1 := ⟨f - 1, by omega⟩
    show insertInnerF (f' + 1) n key v = insertInnerF (key.length + 1) n key v
    cases n with
    | value k0 v0 =>
      rw [insertInnerF_push findPrefix_value, insertInnerF_push findPrefix_value]
    | children k0 cs =>
      rcases hfp : findPrefix (.children k0 cs) key with _ | ⟨i, p⟩
      · rw [insertInnerF_push hfp, insertInnerF_push hfp]
      · cases p with
        | noMatch o =>
          obtain ⟨c, -, -, hnm, -⟩ := findPrefix_some hfp
          exact absurd rfl (hnm o)
        | incomplete q =>
          cases q with
          | zero => rw [insertInnerF_push0 hfp, insertInnerF_push0 hfp]
          | succ q' =>
            obtain ⟨c, hc, hcl, -, -⟩ := findPrefix_some hfp
            obtain ⟨-, hlen, hq⟩ := incomplete_facts hcl
            have hqk : q' + 1 < key.length := by omega
            have hd : (key.drop (q' + 1)).length + 1 ≤ key.length := by
              rw [List.length_drop]
              omega
            rw [insertInnerF_incS hfp, insertInnerF_incS hfp]
            rw [ih f' (by omega) _ _ _ (by omega),
              ih key.length (by omega) _ _ _ (by omega)]
        | perfectSubset q =>
          rw [insertInnerF_perfect hfp, insertInnerF_perfect hfp]
        | divergent q =>
          rw [insertInnerF_divergent hfp, insertInnerF_divergent hfp]
        | exact =>
          rw [insertInnerF_exact hfp, insertInnerF_exact hfp]

/-! Step equations at the `insertInner` level. -/

theorem insertInner_push {n : Node} {key : Key} {v : Nat}
    (h : findPrefix n key = none) :
    insertInner n key v = some (n.push (.value key v)) :=
  insertInnerF_push h

theorem insertInner_push0 {n : Node} {key : Key} {v i : Nat}
    (h : findPrefix n key = some (i, .incomplete 0)) :
    insertInner n key v = some (n.push (.value key v)) :=
  insertInnerF_push0 h

theorem insertInner_incS {k0 key : Key} {cs : List Node} {i q v : Nat}
    (h : findPrefix (.children k0 cs) key = some (i, .incomplete (q + 1))) :
    insertInner (.children k0 cs) key v =
      (insertInner (cs.getD i default) (key.drop (q + 1)) v).map
        (fun c' => Node.children k0 (cs.set i c')) := by
  obtain ⟨c, hc, hcl, -, -⟩ := findPrefix_some h
  obtain ⟨-, hlen, hq⟩ := incomplete_facts hcl
  unfold insertInner
  rw [insertInnerF_incS h,
    insertInnerF_fuel key.length _ _ _ (by rw [List.length_drop]; omega)]
  rfl

theorem insertInner_perfect {k0 key : Key} {cs : List Node} {i p v : Nat}
    (h : findPrefix (.children k0 cs) key = some (i, .perfectSubset p)) :
    insertInner (.children k0 cs) key v =
      (let c := cs.getD i default
       let tailNode : Node :=
         match c with
         | .value ck v0 => .value (ck.drop p) v0
         | .children ck ch => .children (ck.drop p) ch
       let c' := (Node.value (c.key.take p) v).push tailNode
       some (Node.children k0 (cs.set i c'))) :=
  insertInnerF_perfect h

theorem insertInner_divergent {k0 key : Key} {cs : List Node} {i p v : Nat}
    (h : findPrefix (.children k0 cs) key = some (i, .divergent p)) :
    insertInner (.children k0 cs) key v =
      some ((Node.children k0 cs).diverge i p key v) :=
  insertInnerF_divergent h

theorem insertInner_exact {k0 key : Key} {cs : List Node} {i v : Nat}
    (h : findPrefix (.children k0 cs) key = some (i, .exact)) :
    insertInner (.children k0 cs) key v =
      ((cs.getD i default).setValue v).map
        (fun c' => Node.children k0 (cs.set i c')) :=
  insertInnerF_exact h

/-! Step equations for `walk`. -/

theorem sizeN_pos : ∀ n : Node, 1 ≤ sizeN n := by
  intro n
  cases n <;> simp [sizeN]

theorem sizeN_le_sizeL {c : Node} : ∀ {cs : List Node}, c ∈ cs →
    sizeN c ≤ sizeL cs := by
  intro cs
  induction cs with
  | nil => intro h; simp at h
  | cons d rest ih =>
    intro h
    rcases List.mem_cons.mp h with h' | h'
    · subst h'
      unfold sizeL
      omega
    · have := ih h'
      unfold sizeL
      omega

theorem sizeN_lt {c : Node} {k0 : Key} {cs : List Node} (h : c ∈ cs) :
    sizeN c < sizeN (.children k0 cs) := by
  have h1 := sizeN_le_sizeL h
  have h2 : sizeN (Node.children k0 cs) = 1 + sizeL cs := rfl
  omega

theorem walkF_value {fuel : Nat} {key k0 : Key} {v : Nat} :
    walkF (fuel + 1) key (.value k0 v) = some none := by
  conv_lhs => unfold walkF
  rw [findPrefix_value]

theorem walkF_none {fuel : Nat} {key k0 : Key} {cs : List Node}
    (h : findPrefix (.children k0 cs) key = none) :
    walkF (fuel + 1) key (.children k0 cs) = some none := by
  conv_lhs => unfold walkF
  rw [h]

theorem walkF_divergent {fuel : Nat} {key k0 : Key} {cs : List Node}
    {i p : Nat} (h : findPrefix (.children k0 cs) key = some (i, .divergent p)) :
    walkF (fuel + 1) key (.children k0 cs) = some none := by
  conv_lhs => unfold walkF
  rw [h]

theorem walkF_perfect {fuel : Nat} {key k0 : Key} {cs : List Node}
    {i p : Nat}
    (h : findPrefix (.children k0 cs) key = some (i, .perfectSubset p)) :
    walkF (fuel + 1) key (.children k0 cs) = some none := by
  conv_lhs => unfold walkF
  rw [h]

theorem walkF_exact {fuel : Nat} {key k0 : Key} {cs : List Node} {i : Nat}
    (h : findPrefix (.children k0 cs) key = some (i, .exact)) :
    walkF (fuel + 1) key (.children k0 cs) =
      (match cs.getD i default with
       | .children _ cs2 =>
         some (match cs2.getLast? with
           | some x => if x.key = [] then some x else none
           | none => none)
       | .value ck v => some (some (.value ck v))) := by
  conv_lhs => unfold walkF
  rw [h]

theorem walkF_incomplete {fuel : Nat} {key k0 : Key} {cs : List Node}
    {i p : Nat}
    (h : findPrefix (.children k0 cs) key = some (i, .incomplete p)) :
    walkF (fuel + 1) key (.children k0 cs) =
      walkF fuel (key.drop p) (cs.getD i default) := by
  conv_lhs => unfold walkF
  rw [h]

theorem walkF_fuel : ∀ (f : Nat), ∀ (key : Key) (n : Node),
    sizeN n ≤ f → walkF f key n = walk key n := by
  intro f
  induction f using Nat.strong_induction_on with
  | _ f ih =>
    intro key n hf
    have h1 := sizeN_pos n
    obtain ⟨f', rfl⟩ : ∃ f', f = f' + 1 := ⟨f - 1, by omega⟩
    obtain ⟨s', hs⟩ : ∃ s', sizeN n = s' + 1 := ⟨sizeN n - 1, by omega⟩
    show walkF (f' + 1) key n = walkF (sizeN n) key n
    rw [hs]
    cases n with
    | value k0 v0 => rw [walkF_value, walkF_value]
    | children k0 cs =>
      rcases hfp : findPrefix (.children k0 cs) key with _ | ⟨i, p⟩
      · rw [walkF_none hfp, walkF_none hfp]
      · cases p with
        | noMatch o =>
          obtain ⟨c, -, -, hnm, -⟩ := findPrefix_some hfp
          exact absurd rfl (hnm o)
        | incomplete q =>
          obtain ⟨c, hc, -, -, -⟩ := findPrefix_some hfp
          have hcd : cs.getD i default = c := getD_of_get? hc
          have hlt : sizeN c < sizeN (.children k0 cs) :=
            sizeN_lt (List.get?_mem hc)
          rw [walkF_incomplete hfp, walkF_incomplete hfp, hcd]
          rw [ih f' (by omega) _ _ (by omega),
            ih s' (by omega) _ _ (by omega)]
        | perfectSubset q => rw [walkF_perfect hfp, walkF_perfect hfp]
        | divergent q => rw [walkF_divergent hfp, walkF_divergent hfp]
        | exact => rw [walkF_exact hfp, walkF_exact hfp]

theorem walk_value {key k0 : Key} {v : Nat} :
    walk key (.value k0 v) = some none := by
  unfold walk
  have : sizeN (Node.value k0 v) = 1 := rfl
  rw [this]
  exact walkF_value

theorem walk_none {key k0 : Key} {cs : List Node}
    (h : findPrefix (.children k0 cs) key = none) :
    walk key (.children k0 cs) = some none := by
  unfold walk
  obtain ⟨s', hs⟩ : ∃ s', sizeN (Node.children k0 cs) = s' + 1 :=
    ⟨sizeN (Node.children k0 cs) - 1, by have := sizeN_pos (Node.children k0 cs); omega⟩
  rw [hs]
  exact walkF_none h

theorem walk_divergent {key k0 : Key} {cs : List Node} {i p : Nat}
    (h : findPrefix (.children k0 cs) key = some (i, .divergent p)) :
    walk key (.children k0 cs) = some none := by
  unfold walk
  obtain ⟨s', hs⟩ : ∃ s', sizeN (Node.children k0 cs) = s' + 1 :=
    ⟨sizeN (Node.children k0 cs) - 1, by have := sizeN_pos (Node.children k0 cs); omega⟩
  rw [hs]
  exact walkF_divergent h

theorem walk_perfect {key k0 : Key} {cs : List Node} {i p : Nat}
    (h : findPrefix (.children k0 cs) key = some (i, .perfectSubset p)) :
    walk key (.children k0 cs) = some none := by
  unfold walk
  obtain ⟨s', hs⟩ : ∃ s', sizeN (Node.children k0 cs) = s' + 1 :=
    ⟨sizeN (Node.children k0 cs) - 1, by have := sizeN_pos (Node.children k0 cs); omega⟩
  rw [hs]
  exact walkF_perfect h

theorem walk_exact {key k0 : Key} {cs : List Node} {i : Nat}
    (h : findPrefix (.children k0 cs) key = some (i, .exact)) :
    walk key (.children k0 cs) =
      (match cs.getD i default with
       | .children _ cs2 =>
         some (match cs2.getLast? with
           | some x => if x.key = [] then some x else none
           | none => none)
       | .value ck v => some (some (.value ck v))) := by
  unfold walk
  obtain ⟨s', hs⟩ : ∃ s', sizeN (Node.children k0 cs) = s' + 1 :=
    ⟨sizeN (Node.children k0 cs) - 1, by have := sizeN_pos (Node.children k0 cs); omega⟩
  rw [hs]
  exact walkF_exact h

theorem walk_incomplete {key k0 : Key} {cs : List Node} {i p : Nat}
    (h : findPrefix (.children k0 cs) key = some (i, .incomplete p)) :
    walk key (.children k0 cs) = walk (key.drop p) (cs.getD i default) := by
  unfold walk
  obtain ⟨s', hs⟩ : ∃ s', sizeN (Node.children k0 cs) = s' + 1 :=
    ⟨sizeN (Node.children k0 cs) - 1, by have := sizeN_pos (Node.children k0 cs); omega⟩
  obtain ⟨c, hc, -, -, -⟩ := findPrefix_some h
  have hcd : cs.getD i default = c := getD_of_get? hc
  have hlt : sizeN c < sizeN (.children k0 cs) := sizeN_lt (List.get?_mem hc)
  rw [hs, walkF_incomplete h]
  rw [hcd]
  exact walkF_fuel s' _ _ (by omega)

/-! ### `get` computes the reference semantics -/

theorem head?_take {l : Key} {q : Nat} (hq : 1 ≤ q) :
    (l.take q).head? = l.head? := by
  cases l with
  | nil => simp
  | cons a as =>
    cases q with
    | zero => omega
    | succ q' => simp

theorem pairwise_get_of_lt {R : Node → Node → Prop} {cs : List Node}
    (h : cs.Pairwise R) {i j : Nat} {c d : Node} (hij : i < j)
    (hi : cs.get? i = some c) (hj : cs.get? j = some d) : R c d := by
  obtain ⟨hbi, hgi⟩ := List.get?_eq_some.mp hi
  obtain ⟨hbj, hgj⟩ := List.get?_eq_some.mp hj
  have := List.pairwise_iff_get.mp h ⟨i, hbi⟩ ⟨j, hbj⟩ hij
  rw [hgi, hgj] at this
  exact this

/-- Away from the matched position `i`, no child matches the key: children
before `i` classified `NoMatch`, an empty child after `i` is impossible or
matches only the empty key, and a non-empty child after `i` would share the
key's first byte with child `i`. -/
theorem others_none {cs : List Node} {key : Key} {i : Nat} {c : Node}
    (hel : EmptyLast cs) (hhd : HeadsDistinct cs) (hev : EmptiesAreValues cs)
    (hc : cs.get? i = some c)
    (hpre : ∀ m d, m < i → cs.get? m = some d →
      ∃ o, findCommonPrefix d.key key = .noMatch o)
    (hkey : key ≠ []) (hcne : c.key ≠ []) (hhead : c.key.head? = key.head?) :
    ∀ j d, cs.get? j = some d → j ≠ i → semN d key = none := by
  intro j d hj hji
  rcases Nat.lt_trichotomy j i with hlt | heq | hgt
  · obtain ⟨o, ho⟩ := hpre j d hlt hj
    exact semN_none_of_noMatch ho
  · exact absurd heq hji
  · by_contra hm
    have hp : d.key <+: key := matcher_prefix hm
    by_cases hde : d.key = []
    · obtain ⟨v, hv⟩ := hev d (List.get?_mem hj) hde
      apply hm
      rw [hv]
      simp [semN, hkey]
    · have hh : d.key.head? = key.head? := prefix_head hp hde
      have hrel : HeadRel c d := pairwise_get_of_lt hhd hgt hc hj
      exact hrel hcne hde (hhead.trans hh.symm)

theorem others_none_empty {cs : List Node} {key : Key} {i : Nat} {c : Node}
    (hel : EmptyLast cs) (hc : cs.get? i = some c) (hce : c.key = [])
    (hpre : ∀ m d, m < i → cs.get? m = some d →
      ∃ o, findCommonPrefix d.key key = .noMatch o) :
    ∀ j d, cs.get? j = some d → j ≠ i → semN d key = none := by
  intro j d hj hji
  rcases Nat.lt_trichotomy j i with hlt | heq | hgt
  · obtain ⟨o, ho⟩ := hpre j d hlt hj
    exact semN_none_of_noMatch ho
  · exact absurd heq hji
  · have hrel := pairwise_get_of_lt hel hgt hc hj
    exact absurd hce hrel

theorem semF_single {cs : List Node} {key : Key} {i : Nat} {c : Node}
    (hothers : ∀ j d, cs.get? j = some d → j ≠ i → semN d key = none)
    (hc : cs.get? i = some c) : semF cs key = semN c key := by
  rcases hm : semN c key with _ | v
  · rw [semF_eq_none_iff]
    intro d hd
    obtain ⟨j, hj⟩ := List.mem_iff_get?.mp hd
    by_cases hji : j = i
    · subst hji
      rw [hj] at hc
      cases hc
      exact hm
    · exact hothers j d hj hji
  · exact semF_first (fun m hmi d hd => hothers m d hd (by omega)) hc hm

theorem getLast?_get? {cs : List Node} {x : Node} (h : cs.getLast? = some x) :
    cs.get? (cs.length - 1) = some x ∧ cs.length ≠ 0 := by
  cases cs with
  | nil => simp at h
  | cons c rest =>
    rw [List.getLast?_eq_get?] at h
    exact ⟨h, by simp⟩

/-- `semF cs []` finds the trailing empty-fragment `Value` child. -/
theorem semF_nil_some {cs : List Node} {x : Node} {v : Nat}
    (hel : EmptyLast cs) (hlast : cs.getLast? = some x)
    (hx : x = Node.value [] v) : semF cs [] = some v := by
  obtain ⟨hget, hne⟩ := getLast?_get? hlast
  refine semF_first (fun m hm d hd => ?_) hget (by rw [hx]; simp [semN])
  apply semN_of_not_prefix
  intro hp
  have hde : d.key = [] := List.prefix_nil.mp hp
  exact (pairwise_get_of_lt hel hm hd hget) hde

theorem semF_nil_none {cs : List Node} (hel : EmptyLast cs)
    (h : ∀ x, cs.getLast? = some x → x.key ≠ []) : semF cs [] = none := by
  rw [semF_eq_none_iff]
  intro d hd
  apply semN_of_not_prefix
  intro hp
  have hde : d.key = [] := List.prefix_nil.mp hp
  obtain ⟨j, hj⟩ := List.mem_iff_get?.mp hd
  obtain ⟨hbj, -⟩ := List.get?_eq_some.mp hj
  by_cases hjl : j = cs.length - 1
  · subst hjl
    apply h d _ hde
    cases cs with
    | nil => simp at hbj
    | cons c rest => rw [List.getLast?_eq_get?]; exact hj
  · have hlast : cs.get? (cs.length - 1) = some (cs.getD (cs.length - 1) default) := by
      rw [List.getD_eq_getElem cs default (by omega)]
      exact List.get?_eq_get _
    have := pairwise_get_of_lt hel (by omega) hj hlast
    exact this hde

theorem get_congr_walk {n n' : Node} {key key' : Key}
    (h : walk key n = walk key' n') :
    PathTrie.get ⟨n⟩ key = PathTrie.get ⟨n'⟩ key' := by
  unfold PathTrie.get
  rw [h]

theorem get_eq_semF : ∀ (s : Nat) (n : Node), sizeN n ≤ s → WFN n →
    ∀ (key : Key), key ≠ [] → ∀ (k0 : Key) (cs : List Node),
    n = .children k0 cs → PathTrie.get ⟨n⟩ key = some (semF cs key) := by
  intro s
  induction s using Nat.strong_induction_on with
  | _ s ih =>
    intro n hsz hwf key hk k0 cs hn
    subst hn
    rcases hwf with _ | ⟨k0, cs, hel, hhd, hev, hwfk⟩
    rcases hfp : findPrefix (.children k0 cs) key with _ | ⟨i, p⟩
    · have hnone : semF cs key = none := by
        rw [semF_eq_none_iff]
        intro c hc
        obtain ⟨o, ho⟩ := findPrefix_none hfp c hc
        exact semN_none_of_noMatch ho
      unfold PathTrie.get
      rw [walk_none hfp, hnone]
    · obtain ⟨c, hc, hcl, hnm, hpre⟩ := findPrefix_some hfp
      have hcd : cs.getD i default = c := getD_of_get? hc
      cases p with
      | noMatch o => exact absurd rfl (hnm o)
      | perfectSubset q =>
        obtain ⟨hp, hlen, -⟩ := findCommonPrefix_perfectSubset_iff.mp hcl
        have hcne : c.key ≠ [] := by
          intro hh
          rw [hh] at hlen
          simp at hlen
        have hsem : semF cs key = semN c key :=
          semF_single
            (others_none hel hhd hev hc hpre hk hcne (prefix_head hp hk).symm)
            hc
        have hnotp : ¬ c.key <+: key := by
          intro hpp
          have := hpp.length_le
          omega
        unfold PathTrie.get
        rw [walk_perfect hfp, hsem, semN_of_not_prefix hnotp]
      | divergent q =>
        obtain ⟨htake, hq1, hqs, hqc, hne⟩ := findCommonPrefix_divergent hcl
        have hcne : c.key ≠ [] := by
          intro hh
          rw [hh] at hqs
          simp at hqs
        have hkne : key ≠ [] := hk
        have hhead : c.key.head? = key.head? := by
          rw [← @head?_take c.key q hq1, ← @head?_take key q hq1, htake]
        have hsem : semF cs key = semN c key :=
          semF_single (others_none hel hhd hev hc hpre hk hcne hhead) hc
        have hnotp : ¬ c.key <+: key := by
          intro hpp
          rw [List.prefix_iff_eq_take] at hpp
          apply hne
          conv_lhs => rw [hpp]
          exact List.get?_take hqs
        unfold PathTrie.get
        rw [walk_divergent hfp, hsem, semN_of_not_prefix hnotp]
      | incomplete q =>
        cases hcq : c.key with
        | nil =>
          have hq0 : q = 0 := by
            obtain ⟨-, -, hq⟩ := incomplete_facts hcl
            rw [hq, hcq]
            rfl
          obtain ⟨v, hv⟩ := hev c (List.get?_mem hc) hcq
          have hwv : walk key (.children k0 cs) = some none := by
            rw [walk_incomplete hfp, hcd, hv, hq0]
            exact walk_value
          have hsem : semF cs key = semN c key :=
            semF_single (others_none_empty hel hc hcq hpre) hc
          have hcnone : semN c key = none := by
            rw [hv]
            simp [semN, hk]
          unfold PathTrie.get
          rw [hwv, hsem, hcnone]
        | cons a as =>
          obtain ⟨hp, hlen, hq⟩ := incomplete_facts hcl
          have hcne : c.key ≠ [] := by rw [hcq]; simp
          have hhead : c.key.head? = key.head? := prefix_head hp hcne
          have hsem : semF cs key = semN c key :=
            semF_single (others_none hel hhd hev hc hpre hk hcne hhead) hc
          have hkdne : key.drop q ≠ [] := by
            intro hh
            have := congrArg List.length hh
            rw [List.length_drop] at this
            simp at this
            omega
          cases c with
          | value ck v =>
            have hnotp : ¬ (Node.value ck v).key = key := by
              intro hh
              rw [← hh] at hlen
              simp [Node.key] at hlen
            have hwv : walk key (.children k0 cs) = some none := by
              rw [walk_incomplete hfp, hcd]
              exact walk_value
            have hcnone : semN (Node.value ck v) key = none := by
              simp only [semN]
              rw [if_neg (fun hh => hnotp (by rw [Node.key]; exact hh.symm))]
            unfold PathTrie.get
            rw [hwv, hsem, hcnone]
          | children ck cs2 =>
            have hwfc : WFN (.children ck cs2) :=
              hwfk _ (List.get?_mem hc)
            have hszc : sizeN (Node.children ck cs2) < s := by
              have := @sizeN_lt _ k0 _ (List.get?_mem hc)
              omega
            have hrec := ih (sizeN (Node.children ck cs2)) hszc
              (Node.children ck cs2) (Nat.le_refl _) hwfc (key.drop q) hkdne
              ck cs2 rfl
            have hgw : PathTrie.get ⟨Node.children k0 cs⟩ key =
                PathTrie.get ⟨Node.children ck cs2⟩ (key.drop q) := by
              apply get_congr_walk
              rw [walk_incomplete hfp, hcd]
            rw [hgw, hrec, hsem]
            have hq' : q = (Node.children ck cs2).key.length := by
              rw [hq]
            have hpc : (Node.children ck cs2).key <+: key := hp
            rw [ semN_of_prefix hpc]
            rw [semB]
            rw [← hq']
      | exact =>
        have hck : c.key = key := findCommonPrefix_exact_iff.mp hcl
        have hcne : c.key ≠ [] := by rw [hck]; exact hk
        have hsem : semF cs key = semN c key :=
          semF_single (others_none hel hhd hev hc hpre hk hcne (by rw [hck])) hc
        have hpc : c.key <+: key := hck ▸ List.prefix_rfl
        have hdropnil : key.drop c.key.length = [] := by
          rw [hck, List.drop_length]
        cases c with
        | value ck v =>
          have hwv : walk key (.children k0 cs) = some (some (.value ck v)) := by
            rw [walk_exact hfp, hcd]
          unfold PathTrie.get
          rw [hwv, hsem]
          simp only [semN]
          rw [if_pos]
          exact (hck ▸ rfl : key = ck)
        | children ck cs2 =>
          have hwfc := hwfk _ (List.get?_mem hc)
          rcases hwfc with _ | ⟨ck, cs2, hel2, hhd2, hev2, hwfk2⟩
          have hsemc : semN (Node.children ck cs2) key = semF cs2 [] := by
            rw [ semN_of_prefix hpc, semB]
            have : key.drop (Node.children ck cs2).key.length = [] := hdropnil
            rw [this]
          rcases hlast : cs2.getLast? with _ | x
          · have hwv : walk key (.children k0 cs) = some none := by
              rw [walk_exact hfp, hcd]
              show some (match cs2.getLast? with
                | some x => if x.key = [] then some x else none
                | none => none) = some none
              rw [hlast]
            have hnil : semF cs2 [] = none := by
              cases cs2 with
              | nil => rfl
              | cons y ys => rw [List.getLast?_eq_get?] at hlast; simp at hlast
            unfold PathTrie.get
            rw [hwv, hsem, hsemc, hnil]
          · by_cases hxe : x.key = []
            · obtain ⟨v, hv⟩ := hev2 x (by
                obtain ⟨hg, -⟩ := getLast?_get? hlast
                exact List.get?_mem hg) hxe
              have hwv : walk key (.children k0 cs) = some (some x) := by
                rw [walk_exact hfp, hcd]
                show some (match cs2.getLast? with
                  | some x => if x.key = [] then some x else none
                  | none => none) = some (some x)
                rw [hlast]
                show some (if x.key = [] then some x else none) = some (some x)
                rw [if_pos hxe]
              have hnil : semF cs2 [] = some v := semF_nil_some hel2 hlast hv
              unfold PathTrie.get
              rw [hwv, hsem, hsemc, hnil, hv]
            · have hwv : walk key (.children k0 cs) = some none := by
                rw [walk_exact hfp, hcd]
                show some (match cs2.getLast? with
                  | some x => if x.key = [] then some x else none
                  | none => none) = some none
                rw [hlast]
                show some (if x.key = [] then some x else none) = some none
                rw [if_neg hxe]
              have hnil : semF cs2 [] = none := semF_nil_none hel2 (by
                intro y hy
                rw [hy] at hlast
                cases hlast
                exact hxe)
              unfold PathTrie.get
              rw [hwv, hsem, hsemc, hnil]

/-! ### Helper lemmas for the insert specification -/

theorem setSame : ∀ {l : List (Option Nat)} {i : Nat} {x : Option Nat},
    l.get? i = some x → l.set i x = l := by
  intro l
  induction l with
  | nil => intro i x h; simp at h
  | cons a rest ih =>
    intro i x h
    cases i with
    | zero =>
      rw [List.get?_cons_zero] at h
      cases h
      rw [List.set_cons_zero]
    | succ j =>
      rw [List.get?_cons_succ] at h
      rw [List.set_cons_succ, ih h]

theorem semF_cons_none {c : Node} {l : List Node} {k : Key}
    (h : semN c k = none) : semF (c :: l) k = semF l k := by
  conv_lhs => unfold semF
  rw [h]

theorem semF_cons_some {c : Node} {l : List Node} {k : Key} {v : Nat}
    (h : semN c k = some v) : semF (c :: l) k = some v := by
  conv_lhs => unfold semF
  rw [h]

theorem semF_append {l₁ l₂ : List Node} {k : Key} :
    semF (l₁ ++ l₂) k =
      (match semF l₁ k with
       | some v => some v
       | none => semF l₂ k) := by
  induction l₁ with
  | nil => simp [semF]
  | cons c rest ih =>
    rw [List.cons_append]
    rcases h : semN c k with _ | v
    · rw [semF_cons_none h, semF_cons_none h, ih]
    · rw [semF_cons_some h, semF_cons_some h]

theorem two_empties_countP : ∀ {cs : List Node} {j₁ j₂ : Nat}
    {c₁ c₂ : Node}, cs.get? j₁ = some c₁ → cs.get? j₂ = some c₂ →
    j₁ < j₂ → c₁.key = [] → c₂.key = [] →
    2 ≤ cs.countP isEmptyKey := by
  intro cs
  induction cs with
  | nil => intro j₁ j₂ c₁ c₂ h₁ h₂ _ _ _; simp at h₁
  | cons c rest ih =>
    intro j₁ j₂ c₁ c₂ h₁ h₂ hlt he₁ he₂
    cases j₁ with
    | zero =>
      rw [List.get?_cons_zero] at h₁
      cases h₁
      obtain ⟨j₂', rfl⟩ : ∃ j₂', j₂ = j₂' + 1 := ⟨j₂ - 1, by omega⟩
      rw [List.get?_cons_succ] at h₂
      have hmem : c₂ ∈ rest := List.get?_mem h₂
      have hpos : 0 < rest.countP isEmptyKey := by
        rw [List.countP_pos]
        exact ⟨c₂, hmem, by simp [isEmptyKey, he₂]⟩
      have hone : isEmptyKey c = true := by simp [isEmptyKey, he₁]
      rw [List.countP_cons, hone, if_pos rfl]
      omega
    | succ j₁' =>
      obtain ⟨j₂', rfl⟩ : ∃ j₂', j₂ = j₂' + 1 := ⟨j₂ - 1, by omega⟩
      rw [List.get?_cons_succ] at h₁ h₂
      have hih := ih h₁ h₂ (by omega) he₁ he₂
      rw [List.countP_cons]
      omega

/-- Uniqueness of the matching position, from the child-list invariants
with the empty-count bound in place of `EmptyLast` (the list need not have
its empty child last, e.g. `cs ++ [new]` before sorting). -/
theorem wf_uniqPos_count {cs : List Node}
    (hcnt : cs.countP isEmptyKey ≤ 1) (hhd : HeadsDistinct cs)
    (hev : EmptiesAreValues cs) (k : Key) : UniqPos cs k := by
  have main : ∀ j₁ c₁ j₂ c₂, j₁ < j₂ → cs.get? j₁ = some c₁ →
      cs.get? j₂ = some c₂ → semN c₁ k ≠ none → semN c₂ k ≠ none → False := by
    intro j₁ c₁ j₂ c₂ hlt h₁ h₂ hm₁ hm₂
    have hp₁ : c₁.key <+: k := matcher_prefix hm₁
    have hp₂ : c₂.key <+: k := matcher_prefix hm₂
    by_cases he₁ : c₁.key = []
    · obtain ⟨v₁, hv₁⟩ := hev c₁ (List.get?_mem h₁) he₁
      have hknil : k = [] := by
        by_contra hk
        apply hm₁
        rw [hv₁]
        simp [semN, hk]
      subst hknil
      have he₂ : c₂.key = [] := List.prefix_nil.mp hp₂
      have := two_empties_countP h₁ h₂ hlt he₁ he₂
      omega
    · by_cases he₂ : c₂.key = []
      · obtain ⟨v₂, hv₂⟩ := hev c₂ (List.get?_mem h₂) he₂
        have hknil : k = [] := by
          by_contra hk
          apply hm₂
          rw [hv₂]
          simp [semN, hk]
        subst hknil
        exact he₁ (List.prefix_nil.mp hp₁)
      · have hk : k ≠ [] := by
          intro hk
          subst hk
          exact he₁ (List.prefix_nil.mp hp₁)
        have hh₁ : c₁.key.head? = k.head? := prefix_head hp₁ he₁
        have hh₂ : c₂.key.head? = k.head? := prefix_head hp₂ he₂
        have hrel : HeadRel c₁ c₂ := pairwise_get_of_lt hhd hlt h₁ h₂
        exact hrel he₁ he₂ (hh₁.trans hh₂.symm)
  intro j₁ c₁ j₂ c₂ h₁ h₂ hm₁ hm₂
  rcases Nat.lt_trichotomy j₁ j₂ with h | h | h
  · exact absurd (main j₁ c₁ j₂ c₂ h h₁ h₂ hm₁ hm₂) not_false
  · exact h
  · exact absurd (main j₂ c₂ j₁ c₁ h h₂ h₁ hm₂ hm₁) not_false

/-- "Sorting wrapper": sorting a child list with the invariants (stated on
the unsorted list, with the count bound for the empty child) gives a
well-formed node with the same semantics. -/
theorem sorted_children_wf_sem {k0 : Key} {X : List Node}
    (hcnt : X.countP isEmptyKey ≤ 1) (hhd : HeadsDistinct X)
    (hev : EmptiesAreValues X) (hwfk : ∀ c ∈ X, WFN c) :
    WFN (.children k0 (sortNodes X)) ∧
    ∀ k', semF (sortNodes X) k' = semF X k' := by
  have hperm := sortNodes_perm X
  have hel' : EmptyLast (sortNodes X) := emptyLast_sortNodes hcnt
  have hhd' : HeadsDistinct (sortNodes X) := headsDistinct_sortNodes hhd
  have hev' : EmptiesAreValues (sortNodes X) :=
    emptiesAreValues_of_subset (fun c hc => hperm.mem_iff.mp hc) hev
  have hwfk' : ∀ c ∈ sortNodes X, WFN c :=
    fun c hc => hwfk c (hperm.mem_iff.mp hc)
  refine ⟨WFN.children k0 _ hel' hhd' hev' hwfk', fun k' => ?_⟩
  exact semF_perm hperm (wf_uniqPos_count hcnt hhd hev k')

/-- Transfer a semantic update of a child's body to a semantic update of the
child as scanned: the child's fragment is a proper prefix of `key` and is
kept by the update. -/
theorem semN_update_of_semB {c c' : Node} {key : Key} {v : Nat}
    (hkeyeq : c'.key = c.key) (hpc : c.key <+: key)
    (hsemB : ∀ k'', semB c' k'' =
      if k'' = key.drop c.key.length then some v else semB c k'') :
    ∀ k', semN c' k' = if k' = key then some v else semN c k' := by
  intro k'
  obtain ⟨t, ht⟩ := hpc
  by_cases hp : c.key <+: k'
  · obtain ⟨u, hu⟩ := hp
    have hp2 : c.key <+: k' := ⟨u, hu⟩
    have hp' : c'.key <+: k' := by rw [hkeyeq]; exact hp2
    have hdropu : k'.drop c.key.length = u := by
      rw [← hu]
      exact List.drop_left _ _
    have hdropt : key.drop c.key.length = t := by
      rw [← ht]
      exact List.drop_left _ _
    have e1 : semN c' k' = semB c' (k'.drop c.key.length) := by
      rw [ semN_of_prefix hp', hkeyeq]
    have e2 : semN c k' = semB c (k'.drop c.key.length) := semN_of_prefix hp2
    rw [e1, hsemB, hdropu, hdropt, e2, hdropu]
    by_cases hut : u = t
    · rw [if_pos hut, if_pos (by rw [← hu, ← ht, hut])]
    · rw [if_neg hut, if_neg (fun hkk => hut (by
        have happ : c.key ++ u = c.key ++ t := by rw [hu, hkk, ← ht]
        exact List.append_cancel_left happ))]
  · have hnp' : ¬ c'.key <+: k' := by rw [hkeyeq]; exact hp
    rw [ semN_of_not_prefix hnp', semN_of_not_prefix hp]
    rw [if_neg (by
      intro hkk
      subst hkk
      exact hp ⟨t, ht⟩)]

theorem wfn_rekey {ck k2 : Key} {cs : List Node}
    (h : WFN (.children ck cs)) : WFN (.children k2 cs) := by
  rcases h with _ | ⟨_, _, hel, hhd, hev, hwfk⟩
  exact WFN.children _ _ hel hhd hev hwfk

/-- Effect of the `push` arms of `insert_inner` (the `(None, NoMatch)` and
`(Some, Incomplete(0))` cases) on a `Children`-bodied node. -/
theorem push_wf_sem {k0 : Key} {cs : List Node} {key : Key} {v : Nat}
    (hel : EmptyLast cs) (hhd : HeadsDistinct cs) (hev : EmptiesAreValues cs)
    (hwfk : ∀ c ∈ cs, WFN c) (hk : key ≠ [])
    (hnm : ∀ c ∈ cs, c.key ≠ [] → ∃ o, findCommonPrefix c.key key = .noMatch o) :
    WFN ((Node.children k0 cs).push (.value key v)) ∧
    ∀ k', semB ((Node.children k0 cs).push (.value key v)) k' =
      if k' = key then some v else semF cs k' := by
  have hpush : (Node.children k0 cs).push (.value key v) =
      Node.children k0 (sortNodes (cs ++ [Node.value key v])) := rfl
  have hcnt : (cs ++ [Node.value key v]).countP isEmptyKey ≤ 1 := by
    rw [List.countP_append]
    have h1 := emptyLast_count hel
    have h2 : List.countP isEmptyKey [Node.value key v] = 0 := by
      simp [isEmptyKey, Node.key, hk]
    omega
  have hhd' : HeadsDistinct (cs ++ [Node.value key v]) := by
    unfold HeadsDistinct at hhd ⊢
    rw [List.pairwise_append]
    refine ⟨hhd, List.pairwise_singleton _ _, ?_⟩
    intro a ha b hb
    rw [List.mem_singleton] at hb
    subst hb
    intro hane hbne
    obtain ⟨o, ho⟩ := hnm a ha hane
    obtain ⟨-, -, hhead, -⟩ := findCommonPrefix_noMatch_iff.mp ho
    exact hhead
  have hev' : EmptiesAreValues (cs ++ [Node.value key v]) := by
    intro c hc hce
    rw [List.mem_append] at hc
    rcases hc with hc | hc
    · exact hev c hc hce
    · rw [List.mem_singleton] at hc
      subst hc
      exact absurd hce hk
  have hwfk' : ∀ c ∈ cs ++ [Node.value key v], WFN c := by
    intro c hc
    rw [List.mem_append] at hc
    rcases hc with hc | hc
    · exact hwfk c hc
    · rw [List.mem_singleton] at hc
      subst hc
      exact WFN.value _ _
  obtain ⟨hwf', hsem'⟩ :=
    @sorted_children_wf_sem k0 _ hcnt hhd' hev' hwfk'
  rw [hpush]
  refine ⟨hwf', fun k' => ?_⟩
  have hstep : semB (Node.children k0 (sortNodes (cs ++ [Node.value key v]))) k'
      = semF (sortNodes (cs ++ [Node.value key v])) k' := rfl
  rw [hstep, hsem' k', semF_append]
  by_cases hkk : k' = key
  · subst hkk
    have hnone : semF cs k' = none := by
      rw [semF_eq_none_iff]
      intro c hc
      by_cases hce : c.key = []
      · obtain ⟨w, hw⟩ := hev c hc hce
        rw [hw]
        simp [semN, hk]
      · obtain ⟨o, ho⟩ := hnm c hc hce
        exact semN_none_of_noMatch ho
    rw [hnone, if_pos rfl]
    show semF [Node.value k' v] k' = some v
    rw [semF_cons_some (show semN (Node.value k' v) k' = some v by simp [semN])]
  · rw [if_neg hkk]
    rcases hcs : semF cs k' with _ | w
    · show semF [Node.value key v] k' = none
      rw [semF_cons_none (by simp [semN, hkk])]
      rfl
    · rfl

/-- Effect of `push` on a `Value`-bodied node (the value moves to an
empty-fragment child, which sorts last). -/
theorem pushValue_wf_sem {k0 : Key} {v0 : Nat} {key : Key} {v : Nat}
    (hk : key ≠ []) :
    WFN ((Node.value k0 v0).push (.value key v)) ∧
    ∀ k', semB ((Node.value k0 v0).push (.value key v)) k' =
      if k' = key then some v else semB (Node.value k0 v0) k' := by
  have hgt : keyCmp ([] : Key) key = .gt := by
    unfold keyCmp
    have hcmp : compare key.length ([] : Key).length = .gt := by
      rw [Nat.compare_eq_gt]
      cases key with
      | nil => exact absurd rfl hk
      | cons a as => simp
    rw [hcmp]
  have hpush : (Node.value k0 v0).push (.value key v) =
      Node.children k0 [Node.value key v, Node.value [] v0] := by
    show Node.children k0
        (sortNodes ([Node.value [] v0] ++ [Node.value key v])) = _
    rw [List.singleton_append]
    simp [sortNodes, insSorted, Node.key, hgt]
  rw [hpush]
  constructor
  · refine WFN.children _ _ ?_ ?_ ?_ ?_
    · unfold EmptyLast
      refine List.pairwise_cons.mpr ⟨?_, List.pairwise_singleton _ _⟩
      intro d _
      exact hk
    · unfold HeadsDistinct
      refine List.pairwise_cons.mpr ⟨?_, List.pairwise_singleton _ _⟩
      intro d hd
      rw [List.mem_singleton] at hd
      subst hd
      intro _ hke
      exact absurd rfl hke
    · intro c hc hce
      rcases List.mem_cons.mp hc with hc' | hc'
      · subst hc'
        exact absurd hce hk
      · rw [List.mem_singleton] at hc'
        subst hc'
        exact ⟨v0, rfl⟩
    · intro c hc
      rcases List.mem_cons.mp hc with hc' | hc'
      · subst hc'
        exact WFN.value _ _
      · rw [List.mem_singleton] at hc'
        subst hc'
        exact WFN.value _ _
  · intro k'
    show semF [Node.value key v, Node.value [] v0] k' = _
    by_cases hkk : k' = key
    · subst hkk
      rw [semF_cons_some (show semN (Node.value k' v) k' = some v by
        simp [semN]), if_pos rfl]
    · rw [semF_cons_none (show semN (Node.value key v) k' = none by
        simp [semN, hkk]), if_neg hkk]
      by_cases hknil : k' = []
      · subst hknil
        rw [semF_cons_some (show semN (Node.value [] v0) [] = some v0 by
          simp [semN])]
        simp [semB]
      · rw [semF_cons_none (show semN (Node.value [] v0) k' = none by
          simp [semN, hknil])]
        simp [semF, semB, hknil]

/-- Replacing the matched child `i` by a child with the same first byte and
updated semantics updates the list's invariants and semantics in place. -/
theorem set_wf_sem {cs : List Node} {key : Key} {i : Nat}
    {c c' : Node} {v : Nat}
    (hel : EmptyLast cs) (hhd : HeadsDistinct cs) (hev : EmptiesAreValues cs)
    (hwfk : ∀ d ∈ cs, WFN d)
    (hc : cs.get? i = some c)
    (hpre : ∀ m d, m < i → cs.get? m = some d →
      ∃ o, findCommonPrefix d.key key = .noMatch o)
    (hne' : c'.key ≠ []) (hheads : c'.key.head? = c.key.head?)
    (hwfc' : WFN c')
    (hsem : ∀ k', semN c' k' = if k' = key then some v else semN c k') :
    EmptyLast (cs.set i c') ∧ HeadsDistinct (cs.set i c') ∧
    EmptiesAreValues (cs.set i c') ∧ (∀ d ∈ cs.set i c', WFN d) ∧
    ∀ k', semF (cs.set i c') k' = if k' = key then some v else semF cs k' := by
  have hcd : cs.getD i default = c := getD_of_get? hc
  obtain ⟨hib, -⟩ := List.get?_eq_some.mp hc
  have hcne : c.key ≠ [] := by
    intro hce
    rw [hce] at hheads
    cases hcc : c'.key with
    | nil => exact hne' hcc
    | cons a as =>
      rw [hcc] at hheads
      simp at hheads
  refine ⟨?_, ?_, ?_, ?_, ?_⟩
  · unfold EmptyLast at hel ⊢
    exact pairwise_set_congr hel (fun d _ => hne') (fun d h => h)
  · unfold HeadsDistinct at hhd ⊢
    refine pairwise_set_congr hhd ?_ ?_
    · intro d hr h1 h2
      rw [hcd] at hr
      rw [hheads]
      exact hr hcne h2
    · intro d hr h1 h2
      rw [hcd] at hr
      rw [hheads]
      exact hr h1 hcne
  · intro d hd hde
    rcases List.mem_or_eq_of_mem_set hd with hd' | hd'
    · exact hev d hd' hde
    · subst hd'
      exact absurd hde hne'
  · intro d hd
    rcases List.mem_or_eq_of_mem_set hd with hd' | hd'
    · exact hwfk d hd'
    · subst hd'
      exact hwfc'
  · intro k'
    by_cases hkk : k' = key
    · subst hkk
      rw [if_pos rfl]
      refine semF_first (fun m hm d hd => ?_)
        (show (cs.set i c').get? i = some c' from List.get?_set_eq_of_lt _ hib)
        (show semN c' k' = some v from by rw [hsem k', if_pos rfl])
      rw [List.get?_set_ne _ _ (by omega : i ≠ m)] at hd
      obtain ⟨o, ho⟩ := hpre m d hm hd
      exact semN_none_of_noMatch ho
    · rw [if_neg hkk]
      refine semF_congr_map ?_
      rw [List.map_set]
      have hfc : semN c' k' = semN c k' := by
        rw [hsem, if_neg hkk]
      rw [hfc]
      apply setSame
      rw [List.get?_map, hc]
      rfl

/-- The tail node built by the `PerfectSubset` and `Divergent` arms: the
matched child with its fragment shortened by `p`, body unchanged. -/
def rekeyDrop (c : Node) (p : Nat) : Node :=
  match c with
  | .value ck v0 => .value (ck.drop p) v0
  | .children ck ch => .children (ck.drop p) ch

theorem rekeyDrop_key {c : Node} {p : Nat} :
    (rekeyDrop c p).key = c.key.drop p := by
  cases c <;> rfl

theorem rekeyDrop_wf {c : Node} {p : Nat} (h : WFN c) :
    WFN (rekeyDrop c p) := by
  cases c with
  | value ck v0 => exact WFN.value _ _
  | children ck ch => exact wfn_rekey h

theorem rekeyDrop_semB {c : Node} {p : Nat} :
    semB (rekeyDrop c p) = semB c := by
  cases c <;> rfl

/-- The `Divergent` arm in normal form: both the `Value` and `Children`
bodies of the matched child lead to the same split node. -/
theorem diverge_sub_eq {k0 : Key} {cs : List Node} {i p : Nat} {key : Key}
    {v : Nat} :
    (Node.children k0 cs).diverge i p key v =
      Node.children k0 (sortNodes (cs.set i
        (Node.children (key.take p) (sortNodes
          [rekeyDrop (cs.getD i default) p, Node.value (key.drop p) v])))) := by
  have hc2 : cs.getD i default = cs[i]?.getD default := by
    simp [List.getD]
  unfold Node.diverge
  rcases hc : cs[i]?.getD default with ⟨ck, v0⟩ | ⟨ck, ch⟩ <;>
    simp [hc2, hc, Node.push, Node.convertValueToChildren, rekeyDrop,
      sortNodes, insSorted]

theorem insSorted_pair_gt (a m : Node) (h : keyCmp a.key m.key = .gt) :
    insSorted a [m] = [m, a] := by
  unfold insSorted
  rw [h]
  rfl

/-- The `PerfectSubset` arm's replacement child: splitting the matched
child at `p = key.length` yields a well-formed child keyed by `key` whose
semantics add the binding `key = v` on top of the old child's. -/
theorem perfect_child_wf_sem {c : Node} {key : Key} {v : Nat}
    (hwfc : WFN c) (hk : key ≠ [])
    (hpre : key <+: c.key) (hlen : key.length < c.key.length) :
    ((Node.value (c.key.take key.length) v).push (rekeyDrop c key.length)).key
        = key ∧
    WFN ((Node.value (c.key.take key.length) v).push (rekeyDrop c key.length)) ∧
    ∀ k', semN ((Node.value (c.key.take key.length) v).push
        (rekeyDrop c key.length)) k' =
      if k' = key then some v else semN c k' := by
  have htake : c.key.take key.length = key :=
    (List.prefix_iff_eq_take.mp hpre).symm
  have htl : (rekeyDrop c key.length).key = c.key.drop key.length :=
    rekeyDrop_key
  have htlne : (rekeyDrop c key.length).key ≠ [] := by
    rw [htl]
    intro hh
    have hlh := congrArg List.length hh
    rw [List.length_drop] at hlh
    simp at hlh
    omega
  have hgt : keyCmp ([] : Key) (rekeyDrop c key.length).key = .gt := by
    unfold keyCmp
    have hcmp : compare (rekeyDrop c key.length).key.length
        ([] : Key).length = .gt := by
      rw [Nat.compare_eq_gt]
      have hpos := List.length_pos.mpr htlne
      simpa using hpos
    rw [hcmp]
  have hpush : (Node.value (c.key.take key.length) v).push
      (rekeyDrop c key.length) =
      Node.children key [rekeyDrop c key.length, Node.value [] v] := by
    show Node.children (c.key.take key.length)
        (sortNodes ([Node.value [] v] ++ [rekeyDrop c key.length])) = _
    rw [htake, List.singleton_append]
    have h1 : sortNodes [Node.value [] v, rekeyDrop c key.length] =
        insSorted (Node.value [] v) [rekeyDrop c key.length] := rfl
    rw [h1, insSorted_pair_gt (Node.value [] v) (rekeyDrop c key.length) hgt]
  rw [hpush]
  refine ⟨rfl, ?_, ?_⟩
  · refine WFN.children _ _ ?_ ?_ ?_ ?_
    · unfold EmptyLast
      exact List.pairwise_cons.mpr
        ⟨fun d _ => htlne, List.pairwise_singleton _ _⟩
    · unfold HeadsDistinct
      refine List.pairwise_cons.mpr ⟨?_, List.pairwise_singleton _ _⟩
      intro d hd
      rw [List.mem_singleton] at hd
      subst hd
      intro _ hke
      exact absurd rfl hke
    · intro d hd hde
      rcases List.mem_cons.mp hd with hd' | hd'
      · subst hd'
        exact absurd hde htlne
      · rw [List.mem_singleton] at hd'
        subst hd'
        exact ⟨v, rfl⟩
    · intro d hd
      rcases List.mem_cons.mp hd with hd' | hd'
      · subst hd'
        exact rekeyDrop_wf hwfc
      · rw [List.mem_singleton] at hd'
        subst hd'
        exact WFN.value _ _
  · intro k'
    by_cases hpk : key <+: k'
    · obtain ⟨t, ht⟩ := hpk
      have hrt : k'.drop key.length = t := by
        rw [← ht]
        exact List.drop_left _ _
      have hck : (Node.children key
          [rekeyDrop c key.length, Node.value [] v]).key <+: k' := ⟨t, ht⟩
      have hsem1 := semN_of_prefix hck
      simp only [Node.key, semB] at hsem1
      rw [hrt] at hsem1
      rw [hsem1]
      by_cases hteq : t = []
      · subst hteq
        have hkk : k' = key := by rw [← ht, List.append_nil]
        have hnold : semN (rekeyDrop c key.length) [] = none := by
          apply semN_of_not_prefix
          intro hpp
          exact htlne (List.prefix_nil.mp hpp)
        rw [semF_cons_none hnold,
          semF_cons_some (show semN (Node.value [] v) [] = some v by
            simp [semN]),
          if_pos hkk]
      · have hkk : k' ≠ key := by
          intro hh
          apply hteq
          rw [← hrt, hh, List.drop_length]
        have hnew : semN (Node.value [] v) t = none := by
          simp [semN, hteq]
        have hLr : semF [rekeyDrop c key.length, Node.value [] v] t =
            semN (rekeyDrop c key.length) t := by
          rcases hv : semN (rekeyDrop c key.length) t with _ | w
          · rw [semF_cons_none hv, semF_cons_none hnew]
            rfl
          · exact semF_cons_some hv
        rw [hLr, if_neg hkk]
        have hsplit : c.key = key ++ c.key.drop key.length := by
          conv_lhs => rw [← List.take_append_drop key.length c.key]
          rw [htake]
        by_cases hop : c.key.drop key.length <+: t
        · have hcp : c.key <+: k' := by
            rw [hsplit, ← ht]
            exact (List.prefix_append_right_inj key).mpr hop
          have hdd : t.drop (c.key.drop key.length).length =
              k'.drop c.key.length := by
            have h1 : (key ++ t).drop c.key.length =
                ((key ++ t).drop key.length).drop
                  (c.key.length - key.length) := by
              rw [List.drop_drop]
              congr 1
              omega
            rw [List.length_drop, ← ht, h1, List.drop_left]
          have e1 : semN (rekeyDrop c key.length) t =
              semB (rekeyDrop c key.length)
                (t.drop (rekeyDrop c key.length).key.length) :=
            semN_of_prefix (by rw [htl]; exact hop)
          have e2 : semN c k' = semB c (k'.drop c.key.length) :=
            semN_of_prefix hcp
          rw [e1, e2, rekeyDrop_semB, htl, hdd]
        · have hnold : semN (rekeyDrop c key.length) t = none :=
            semN_of_not_prefix (by rw [htl]; exact hop)
          have hnc : semN c k' = none := by
            apply semN_of_not_prefix
            intro hcp
            apply hop
            have hap : key ++ c.key.drop key.length <+: key ++ t := by
              rw [← hsplit, ht]
              exact hcp
            exact (List.prefix_append_right_inj key).mp hap
          rw [hnold, hnc]
    · have h1 : semN (Node.children key
          [rekeyDrop c key.length, Node.value [] v]) k' = none :=
        semN_of_not_prefix hpk
      have h2 : semN c k' = none := by
        apply semN_of_not_prefix
        intro hcp
        exact hpk (hpre.trans hcp)
      have hkk : k' ≠ key := by
        intro hh
        apply hpk
        rw [hh]
      rw [h1, h2, if_neg hkk]

/-- The `Divergent` arm's replacement child: the split node groups the old
child (fragment shortened past the shared prefix) with a new `Value` child
for the diverging tail of `key`; it is well formed and adds `key = v`. -/
theorem diverge_child_wf_sem {c : Node} {key : Key} {v : Nat} {p : Nat}
    (hwfc : WFN c)
    (htk : c.key.take p = key.take p) (hp0 : 0 < p)
    (hpc : p < c.key.length) (hpk : p < key.length)
    (hdne : c.key.get? p ≠ key.get? p) :
    WFN (Node.children (key.take p)
      (sortNodes [rekeyDrop c p, Node.value (key.drop p) v])) ∧
    ∀ k', semN (Node.children (key.take p)
        (sortNodes [rekeyDrop c p, Node.value (key.drop p) v])) k' =
      if k' = key then some v else semN c k' := by
  have holdk : (rekeyDrop c p).key = c.key.drop p := rekeyDrop_key
  have holdne : (rekeyDrop c p).key ≠ [] := by
    rw [holdk]
    intro hh
    have hlh := congrArg List.length hh
    rw [List.length_drop] at hlh
    simp at hlh
    omega
  have hnewne : key.drop p ≠ [] := by
    intro hh
    have hlh := congrArg List.length hh
    rw [List.length_drop] at hlh
    simp at hlh
    omega
  have hh1 : (c.key.drop p).head? = c.key.get? p := by
    rw [List.head?_drop, List.get?_eq_getElem?]
  have hh2 : (key.drop p).head? = key.get? p := by
    rw [List.head?_drop, List.get?_eq_getElem?]
  have hcnt : List.countP isEmptyKey
      [rekeyDrop c p, Node.value (key.drop p) v] ≤ 1 := by
    have hA : isEmptyKey (rekeyDrop c p) = false := by
      unfold isEmptyKey
      simpa using holdne
    have hB : isEmptyKey (Node.value (key.drop p) v) = false := by
      unfold isEmptyKey
      rw [decide_eq_false_iff_not]
      exact hnewne
    simp [List.countP_cons, hA, hB]
  have hrel : HeadRel (rekeyDrop c p) (Node.value (key.drop p) v) := by
    intro h1 h2
    rw [holdk]
    show (c.key.drop p).head? ≠ (key.drop p).head?
    rw [hh1, hh2]
    exact hdne
  have hhdX : HeadsDistinct [rekeyDrop c p, Node.value (key.drop p) v] := by
    unfold HeadsDistinct
    refine List.pairwise_cons.mpr ⟨?_, List.pairwise_singleton _ _⟩
    intro d hd
    rw [List.mem_singleton] at hd
    subst hd
    exact hrel
  have hevX : EmptiesAreValues [rekeyDrop c p, Node.value (key.drop p) v] := by
    intro d hd hde
    rcases List.mem_cons.mp hd with hd' | hd'
    · subst hd'
      exact absurd hde holdne
    · rw [List.mem_singleton] at hd'
      subst hd'
      exact absurd hde hnewne
  have hwfkX : ∀ d ∈ [rekeyDrop c p, Node.value (key.drop p) v], WFN d := by
    intro d hd
    rcases List.mem_cons.mp hd with hd' | hd'
    · subst hd'
      exact rekeyDrop_wf hwfc
    · rw [List.mem_singleton] at hd'
      subst hd'
      exact WFN.value _ _
  obtain ⟨hwfX, hsemX⟩ := @sorted_children_wf_sem (key.take p)
    [rekeyDrop c p, Node.value (key.drop p) v] hcnt hhdX hevX hwfkX
  refine ⟨hwfX, fun k' => ?_⟩
  have hKp : (key.take p).length = p := by
    rw [List.length_take]
    omega
  have hcsplit : c.key = key.take p ++ c.key.drop p := by
    conv_lhs => rw [← List.take_append_drop p c.key]
    rw [htk]
  have hksplit : key = key.take p ++ key.drop p :=
    (List.take_append_drop p key).symm
  by_cases hKpre : key.take p <+: k'
  · obtain ⟨t, ht⟩ := hKpre
    have hrt : k'.drop (key.take p).length = t := by
      rw [← ht]
      exact List.drop_left _ _
    have hck : (Node.children (key.take p)
        (sortNodes [rekeyDrop c p, Node.value (key.drop p) v])).key <+: k' :=
      ⟨t, ht⟩
    have hsem1 := semN_of_prefix hck
    simp only [Node.key, semB] at hsem1
    rw [hrt] at hsem1
    rw [hsem1, hsemX]
    by_cases hteq : t = key.drop p
    · have hkk : k' = key := by
        rw [← ht, hteq, ← hksplit]
      have hnold : semN (rekeyDrop c p) t = none := by
        apply semN_of_not_prefix
        intro hpp
        rw [holdk] at hpp
        have hheq := prefix_head hpp (by rw [← holdk]; exact holdne)
        rw [hteq, hh1, hh2] at hheq
        exact hdne hheq
      rw [semF_cons_none hnold,
        semF_cons_some (show semN (Node.value (key.drop p) v) t = some v by
          simp [semN, hteq]),
        if_pos hkk]
    · have hkk : k' ≠ key := by
        intro hh
        apply hteq
        rw [← hrt, hh, hKp]
      have hnew : semN (Node.value (key.drop p) v) t = none := by
        simp [semN, hteq]
      have hL : semF [rekeyDrop c p, Node.value (key.drop p) v] t =
          semN (rekeyDrop c p) t := by
        rcases hv : semN (rekeyDrop c p) t with _ | w
        · rw [semF_cons_none hv, semF_cons_none hnew]
          rfl
        · exact semF_cons_some hv
      rw [hL, if_neg hkk]
      by_cases hop : c.key.drop p <+: t
      · have hcp : c.key <+: k' := by
          rw [hcsplit, ← ht]
          exact (List.prefix_append_right_inj (key.take p)).mpr hop
        have hdd : t.drop (c.key.drop p).length = k'.drop c.key.length := by
          have h1 : (key.take p ++ t).drop c.key.length =
              ((key.take p ++ t).drop (key.take p).length).drop
                (c.key.length - p) := by
            rw [List.drop_drop]
            congr 1
            rw [hKp]
            omega
          rw [List.length_drop, ← ht, h1, List.drop_left]
        have e1 : semN (rekeyDrop c p) t =
            semB (rekeyDrop c p) (t.drop (rekeyDrop c p).key.length) :=
          semN_of_prefix (by rw [holdk]; exact hop)
        have e2 : semN c k' = semB c (k'.drop c.key.length) :=
          semN_of_prefix hcp
        rw [e1, e2, rekeyDrop_semB, rekeyDrop_key, hdd]
      · have hnold : semN (rekeyDrop c p) t = none :=
          semN_of_not_prefix (by rw [holdk]; exact hop)
        have hnc : semN c k' = none := by
          apply semN_of_not_prefix
          intro hcp
          apply hop
          have hap : key.take p ++ c.key.drop p <+: key.take p ++ t := by
            rw [← hcsplit, ht]
            exact hcp
          exact (List.prefix_append_right_inj (key.take p)).mp hap
        rw [hnold, hnc]
  · have h1 : semN (Node.children (key.take p)
        (sortNodes [rekeyDrop c p, Node.value (key.drop p) v])) k' = none :=
      semN_of_not_prefix hKpre
    have h2 : semN c k' = none := by
      apply semN_of_not_prefix
      intro hcp
      apply hKpre
      rw [← htk]
      exact (List.take_prefix p c.key).trans hcp
    have hkk : k' ≠ key := by
      intro hh
      apply hKpre
      rw [hh]
      exact List.take_prefix _ _
    rw [h1, h2, if_neg hkk]

/-- `insert_inner` on a well-formed node with a non-empty key keeps the
node's fragment and constructor shape, preserves well-formedness, and
updates the denoted map at exactly `key`. -/
theorem insertInner_spec : ∀ (s : Nat) (key : Key), key.length ≤ s →
    key ≠ [] → ∀ (n n' : Node) (v : Nat), WFN n →
    insertInner n key v = some n' →
    n'.key = n.key ∧ WFN n' ∧
    (∀ kr csr, n = .children kr csr → ∃ csr', n' = .children kr csr') ∧
    (∀ k', semB n' k' = if k' = key then some v else semB n k') := by
  intro s
  induction s using Nat.strong_induction_on with
  | _ s ih =>
    intro key hs hk n n' v hwf hins
    cases n with
    | value k0 v0 =>
      rw [insertInner_push findPrefix_value] at hins
      injection hins with hins
      subst hins
      obtain ⟨hw, hsem⟩ := @pushValue_wf_sem k0 v0 key v hk
      refine ⟨rfl, hw, ?_, hsem⟩
      intro kr csr hh
      simp at hh
    | children k0 cs =>
      rcases hwf with _ | ⟨_, _, hel, hhd, hev, hwfk⟩
      rcases hfp : findPrefix (.children k0 cs) key with _ | ⟨i, p⟩
      · rw [insertInner_push hfp] at hins
        injection hins with hins
        subst hins
        have hnm := findPrefix_none hfp
        obtain ⟨hw, hsem⟩ := @push_wf_sem k0 cs key v hel hhd hev hwfk hk
          (fun c hc _ => hnm c hc)
        refine ⟨rfl, hw, ?_, hsem⟩
        intro kr csr hh
        injection hh with h1 h2
        subst h1
        exact ⟨_, rfl⟩
      · cases p with
        | noMatch o =>
          obtain ⟨c, -, -, hnmx, -⟩ := findPrefix_some hfp
          exact absurd rfl (hnmx o)
        | incomplete q =>
          obtain ⟨c, hc, hcl, -, hpre⟩ := findPrefix_some hfp
          have hcd : cs.getD i default = c := getD_of_get? hc
          cases q with
          | zero =>
            rw [insertInner_push0 hfp] at hins
            injection hins with hins
            subst hins
            obtain ⟨-, -, hq⟩ := incomplete_facts hcl
            have hcke : c.key = [] := List.length_eq_zero.mp hq.symm
            have hnm : ∀ d ∈ cs, d.key ≠ [] →
                ∃ o, findCommonPrefix d.key key = .noMatch o := by
              intro d hd hdne
              obtain ⟨j, hj⟩ := List.mem_iff_get?.mp hd
              rcases Nat.lt_trichotomy j i with hji | hji | hji
              · exact hpre j d hji hj
              · subst hji
                rw [hj] at hc
                injection hc with hc
                subst hc
                exact absurd hcke hdne
              · have hrel := pairwise_get_of_lt hel hji hc hj
                exact absurd hcke hrel
            obtain ⟨hw, hsem⟩ := @push_wf_sem k0 cs key v hel hhd hev hwfk hk
              hnm
            refine ⟨rfl, hw, ?_, hsem⟩
            intro kr csr hh
            injection hh with h1 h2
            subst h1
            exact ⟨_, rfl⟩
          | succ q' =>
            rw [insertInner_incS hfp, hcd] at hins
            rw [Option.map_eq_some'] at hins
            obtain ⟨c'', hc'', hn'⟩ := hins
            obtain ⟨hpc, hlen, hq⟩ := incomplete_facts hcl
            have hcne : c.key ≠ [] := by
              intro hh
              rw [hh] at hq
              simp at hq
            have hds : (key.drop (q' + 1)).length < s := by
              rw [List.length_drop]
              omega
            have hdne : key.drop (q' + 1) ≠ [] := by
              intro hh
              have hlh := congrArg List.length hh
              rw [List.length_drop] at hlh
              simp at hlh
              omega
            have hwfc : WFN c := hwfk c (List.get?_mem hc)
            obtain ⟨hkey'', hwf'', -, hsem''⟩ :=
              ih (key.drop (q' + 1)).length hds (key.drop (q' + 1)) le_rfl
                hdne c c'' v hwfc hc''
            rw [hq] at hsem''
            have hsemc : ∀ k', semN c'' k' =
                if k' = key then some v else semN c k' :=
              semN_update_of_semB hkey'' hpc hsem''
            have hne'' : c''.key ≠ [] := by
              rw [hkey'']
              exact hcne
            have hheads : c''.key.head? = c.key.head? := by
              rw [hkey'']
            obtain ⟨helS, hhdS, hevS, hwfS, hsemS⟩ :=
              set_wf_sem hel hhd hev hwfk hc hpre hne'' hheads hwf'' hsemc
            subst hn'
            refine ⟨rfl, WFN.children _ _ helS hhdS hevS hwfS, ?_, ?_⟩
            · intro kr csr hh
              injection hh with h1 h2
              subst h1
              exact ⟨_, rfl⟩
            · intro k'
              exact hsemS k'
        | perfectSubset pp =>
          obtain ⟨c, hc, hcl, -, hpre⟩ := findPrefix_some hfp
          have hcd : cs.getD i default = c := getD_of_get? hc
          obtain ⟨hpk, hlen, hp⟩ := findCommonPrefix_perfectSubset_iff.mp hcl
          subst hp
          have hins' := @insertInner_perfect k0 key cs i key.length v hfp
          rw [hcd] at hins'
          have hins2 : insertInner (.children k0 cs) key v =
              some (Node.children k0 (cs.set i
                ((Node.value (c.key.take key.length) v).push
                  (rekeyDrop c key.length)))) := hins'
          rw [hins2] at hins
          injection hins with hins
          subst hins
          obtain ⟨hkeyc', hwfc', hsemc'⟩ :=
            perfect_child_wf_sem (hwfk c (List.get?_mem hc)) hk hpk hlen
          have hne' : ((Node.value (c.key.take key.length) v).push
              (rekeyDrop c key.length)).key ≠ [] := by
            rw [hkeyc']
            exact hk
          have hheads : ((Node.value (c.key.take key.length) v).push
              (rekeyDrop c key.length)).key.head? = c.key.head? := by
            rw [hkeyc']
            exact prefix_head hpk hk
          obtain ⟨helS, hhdS, hevS, hwfS, hsemS⟩ :=
            set_wf_sem hel hhd hev hwfk hc hpre hne' hheads hwfc' hsemc'
          refine ⟨rfl, WFN.children _ _ helS hhdS hevS hwfS, ?_, ?_⟩
          · intro kr csr hh
            injection hh with h1 h2
            subst h1
            exact ⟨_, rfl⟩
          · intro k'
            exact hsemS k'
        | divergent pp =>
          obtain ⟨c, hc, hcl, -, hpre⟩ := findPrefix_some hfp
          have hcd : cs.getD i default = c := getD_of_get? hc
          obtain ⟨htk, hp0, hpc, hpkk, hdne⟩ := findCommonPrefix_divergent hcl
          rw [insertInner_divergent hfp, diverge_sub_eq, hcd] at hins
          injection hins with hins
          subst hins
          obtain ⟨hwfX, hsemX⟩ :=
            diverge_child_wf_sem (hwfk c (List.get?_mem hc)) htk hp0 hpc
              hpkk hdne
          have hne' : (Node.children (key.take pp) (sortNodes
              [rekeyDrop c pp, Node.value (key.drop pp) v])).key ≠ [] := by
            show key.take pp ≠ []
            intro hh
            have hlh := congrArg List.length hh
            rw [List.length_take] at hlh
            simp only [List.length_nil] at hlh
            omega
          have hheads : (Node.children (key.take pp) (sortNodes
              [rekeyDrop c pp, Node.value (key.drop pp) v])).key.head? =
              c.key.head? := by
            show (key.take pp).head? = c.key.head?
            rw [head?_take hp0, ← @head?_take c.key pp hp0, htk,
              head?_take hp0]
          obtain ⟨helS, hhdS, hevS, hwfS, hsemS⟩ :=
            set_wf_sem hel hhd hev hwfk hc hpre hne' hheads hwfX hsemX
          have hcntS : (cs.set i (Node.children (key.take pp) (sortNodes
              [rekeyDrop c pp, Node.value (key.drop pp) v]))).countP
              isEmptyKey ≤ 1 := emptyLast_count helS
          obtain ⟨hwfF, hsemF2⟩ := @sorted_children_wf_sem k0
            (cs.set i (Node.children (key.take pp) (sortNodes
              [rekeyDrop c pp, Node.value (key.drop pp) v])))
            hcntS hhdS hevS hwfS
          refine ⟨rfl, hwfF, ?_, ?_⟩
          · intro kr csr hh
            injection hh with h1 h2
            subst h1
            exact ⟨_, rfl⟩
          · intro k'
            show semF (sortNodes (cs.set i (Node.children (key.take pp)
              (sortNodes [rekeyDrop c pp, Node.value (key.drop pp) v]))))
              k' = _
            rw [hsemF2 k', hsemS k']
            rfl
        | exact =>
          obtain ⟨c, hc, hcl, -, hpre⟩ := findPrefix_some hfp
          have hcd : cs.getD i default = c := getD_of_get? hc
          rw [insertInner_exact hfp, hcd] at hins
          cases c with
          | children ck ch => simp [Node.setValue] at hins
          | value ck v0 =>
            have hck : ck = key := findCommonPrefix_exact_iff.mp hcl
            rw [show (Node.value ck v0).setValue v =
              some (Node.value ck v) from rfl, Option.map_some'] at hins
            injection hins with hins
            subst hins
            have hne' : (Node.value ck v).key ≠ [] := by
              show ck ≠ []
              rw [hck]
              exact hk
            have hheads : (Node.value ck v).key.head? =
                (Node.value ck v0).key.head? := rfl
            have hsemc : ∀ k', semN (Node.value ck v) k' =
                if k' = key then some v else semN (Node.value ck v0) k' := by
              intro k'
              show (if k' = ck then some v else none) = _
              by_cases hkk : k' = key
              · rw [if_pos (by rw [hkk, hck]), if_pos hkk]
              · rw [if_neg (fun hh => hkk (by rw [← hck, hh])),
                  if_neg hkk]
                show _ = (if k' = ck then some v0 else none)
                rw [if_neg (fun hh => hkk (by rw [← hck, hh]))]
            obtain ⟨helS, hhdS, hevS, hwfS, hsemS⟩ :=
              set_wf_sem hel hhd hev hwfk hc hpre hne' hheads
                (WFN.value _ _) hsemc
            refine ⟨rfl, WFN.children _ _ helS hhdS hevS hwfS, ?_, ?_⟩
            · intro kr csr hh
              injection hh with h1 h2
              subst h1
              exact ⟨_, rfl⟩
            · intro k'
              exact hsemS k'

/-! ### Building a trie by a sequence of inserts -/

theorem lastAssoc_foldl : ∀ (l : List (Key × Nat)) (k : Key)
    (acc : Option Nat),
    l.foldl (fun acc p => if p.1 = k then some p.2 else acc) acc =
      (match lastAssoc l k with
       | some v => some v
       | none => acc) := by
  intro l
  induction l with
  | nil =>
    intro k acc
    rfl
  | cons q rest ih =>
    intro k acc
    rw [List.foldl_cons, ih]
    have hr : lastAssoc (q :: rest) k =
        rest.foldl (fun acc p => if p.1 = k then some p.2 else acc)
          (if q.1 = k then some q.2 else none) := rfl
    rw [hr, ih]
    rcases lastAssoc rest k with _ | w
    · by_cases hqk : q.1 = k <;> simp [hqk]
    · rfl

theorem lastAssoc_cons {q : Key × Nat} {rest : List (Key × Nat)} {k : Key} :
    lastAssoc (q :: rest) k =
      (match lastAssoc rest k with
       | some w => some w
       | none => if q.1 = k then some q.2 else none) := by
  show rest.foldl (fun acc p => if p.1 = k then some p.2 else acc)
    (if q.1 = k then some q.2 else none) = _
  rw [lastAssoc_foldl]

theorem lastAssoc_mem {l : List (Key × Nat)} {k : Key} : ∀ {v : Nat},
    lastAssoc l k = some v → ∃ p ∈ l, p.1 = k := by
  induction l with
  | nil =>
    intro v h
    simp [lastAssoc] at h
  | cons q rest ih =>
    intro v h
    rw [lastAssoc_cons] at h
    rcases hrest : lastAssoc rest k with _ | w
    · rw [hrest] at h
      by_cases hqk : q.1 = k
      · exact ⟨q, List.mem_cons_self _ _, hqk⟩
      · rw [if_neg hqk] at h
        exact absurd h (by simp)
    · obtain ⟨p, hp, hpk⟩ := ih hrest
      exact ⟨p, List.mem_cons_of_mem _ hp, hpk⟩

/-- Folding `insert` over a list of non-empty-keyed bindings: the root keeps
its shape and well-formedness, and the final map is the initial map
overridden by the bindings, last wins. -/
theorem buildT_spec : ∀ (l : List (Key × Nat)) (t0 t : PathTrie),
    (∀ p ∈ l, p.1 ≠ []) →
    (∃ cs0, t0.root = Node.children [] cs0) → WFN t0.root →
    l.foldlM (fun t q => t.insert q.1 q.2) t0 = some t →
    (∃ cs, t.root = Node.children [] cs) ∧ WFN t.root ∧
    ∀ k, semB t.root k =
      (match lastAssoc l k with
       | some v => some v
       | none => semB t0.root k) := by
  intro l
  induction l with
  | nil =>
    intro t0 t hkeys hshape hwf hfold
    rw [List.foldlM_nil] at hfold
    injection hfold with hfold
    subst hfold
    exact ⟨hshape, hwf, fun k => rfl⟩
  | cons q rest ih =>
    intro t0 t hkeys hshape hwf hfold
    rw [List.foldlM_cons] at hfold
    rcases hins1 : PathTrie.insert t0 q.1 q.2 with _ | t1
    · rw [hins1] at hfold
      simp at hfold
    · rw [hins1] at hfold
      simp only [Option.bind_eq_bind, Option.some_bind] at hfold
      unfold PathTrie.insert at hins1
      rw [Option.map_eq_some'] at hins1
      obtain ⟨n1, hn1, ht1⟩ := hins1
      obtain ⟨cs0, hcs0⟩ := hshape
      obtain ⟨-, hwf1, hsh1, hsem1⟩ :=
        insertInner_spec q.1.length q.1 le_rfl
          (hkeys q (List.mem_cons_self _ _)) t0.root n1 q.2 hwf hn1
      obtain ⟨cs1, hcs1⟩ := hsh1 [] cs0 hcs0
      have ht1root : t1.root = n1 := by
        rw [← ht1]
      obtain ⟨hshF, hwfF, hsemF3⟩ :=
        ih t1 t (fun p hp => hkeys p (List.mem_cons_of_mem _ hp))
          ⟨cs1, by rw [ht1root]; exact hcs1⟩
          (by rw [ht1root]; exact hwf1) hfold
      refine ⟨hshF, hwfF, ?_⟩
      intro k
      rw [hsemF3 k, lastAssoc_cons]
      rcases lastAssoc rest k with _ | w
      · rw [ht1root, hsem1 k]
        by_cases hqk : q.1 = k
        · rw [if_pos (show k = q.1 by rw [hqk]), if_pos hqk]
        · rw [if_neg (fun hh => hqk hh.symm), if_neg hqk]
      · rfl

/-- C2 (amended): for every trie built from `new()` by a sequence of
`insert` calls with non-empty keys in which every insert returns normally,
and every key `k` among those inserted, `get k` returns `Some v` where `v`
is the value of the last insert whose key equals `k`. -/
theorem get_after_build {l : List (Key × Nat)} {t : PathTrie} {k : Key}
    {v : Nat} (hkeys : ∀ p ∈ l, p.1 ≠ []) (hb : buildT l = some t)
    (hlast : lastAssoc l k = some v) :
    t.get k = some (some v) := by
  obtain ⟨⟨cs, hroot⟩, hwf, hsem⟩ :=
    buildT_spec l PathTrie.new t hkeys ⟨[], rfl⟩
      (WFN.children _ _ List.Pairwise.nil List.Pairwise.nil
        (fun c hc => absurd hc (List.not_mem_nil c))
        (fun c hc => absurd hc (List.not_mem_nil c))) hb
  have hkne : k ≠ [] := by
    obtain ⟨p, hp, hpk⟩ := lastAssoc_mem hlast
    rw [← hpk]
    exact hkeys p hp
  have hget := get_eq_semF (sizeN t.root) t.root le_rfl hwf k hkne [] cs hroot
  have hsemv : semF cs k = some v := by
    have h2 := hsem k
    rw [hlast, hroot] at h2
    exact h2
  show PathTrie.get ⟨t.root⟩ k = some (some v)
  rw [hget, hsemv]

theorem get_after_build_witness :
    (∀ p ∈ [(([1] : Key), 5), ([1], 7), ([1, 2], 6)], p.1 ≠ []) ∧
    lastAssoc [(([1] : Key), 5), ([1], 7), ([1, 2], 6)] [1] = some 7 ∧
    ((buildT [(([1] : Key), 5), ([1], 7), ([1, 2], 6)]).getD
        PathTrie.new).get [1] = some (some 7) :=
  ⟨by decide, rfl,
    @get_after_build [(([1] : Key), 5), ([1], 7), ([1, 2], 6)]
      ((buildT [(([1] : Key), 5), ([1], 7), ([1, 2], 6)]).getD PathTrie.new)
      [1] 7 (by decide) (by rfl) rfl⟩

/-! ### C8: empty-fragment children stay last -/

/-- Every child before the last has a non-empty fragment. -/
def emptyLastB : List Node → Bool
  | [] => true
  | [_] => true
  | c :: rest => (!(isEmptyKey c)) && emptyLastB rest

mutual
def elaN : Node → Bool
  | .value _ _ => true
  | .children _ cs => emptyLastB cs && elaL cs
def elaL : List Node → Bool
  | [] => true
  | c :: cs => elaN c && elaL cs
end

theorem emptyLastB_of_emptyLast : ∀ {cs : List Node}, EmptyLast cs →
    emptyLastB cs = true := by
  intro cs
  induction cs with
  | nil => intro h; rfl
  | cons c rest ih =>
    intro h
    unfold EmptyLast at h
    rw [List.pairwise_cons] at h
    cases rest with
    | nil => rfl
    | cons d rest2 =>
      show ((!(isEmptyKey c)) && emptyLastB (d :: rest2)) = true
      rw [Bool.and_eq_true]
      refine ⟨?_, ih h.2⟩
      have hc := h.1 d (List.mem_cons_self _ _)
      unfold isEmptyKey
      simp [hc]

theorem elaN_of_wfn {n : Node} (h : WFN n) : elaN n = true := by
  induction h with
  | value k v => rfl
  | children k cs hel hhd hev hwf ihw =>
    show (emptyLastB cs && elaL cs) = true
    rw [Bool.and_eq_true]
    refine ⟨emptyLastB_of_emptyLast hel, ?_⟩
    clear hel hhd hev hwf
    revert ihw
    induction cs with
    | nil =>
      intro _
      rfl
    | cons c rest ihl =>
      intro ihw
      show (elaN c && elaL rest) = true
      rw [Bool.and_eq_true]
      exact ⟨ihw c (List.mem_cons_self _ _),
        ihl (fun d hd => ihw d (List.mem_cons_of_mem _ hd))⟩

/-- C8 (amended): after every sequence of normally-returning inserts of
non-empty keys, every node's child list keeps any empty-fragment child
last (children before the last have non-empty fragments). -/
theorem empty_last_after_build {l : List (Key × Nat)} {t : PathTrie}
    (hkeys : ∀ p ∈ l, p.1 ≠ []) (hb : buildT l = some t) :
    elaN t.root = true := by
  obtain ⟨-, hwf, -⟩ := buildT_spec l PathTrie.new t hkeys ⟨[], rfl⟩
    (WFN.children _ _ List.Pairwise.nil List.Pairwise.nil
      (fun c hc => absurd hc (List.not_mem_nil c))
      (fun c hc => absurd hc (List.not_mem_nil c))) hb
  exact elaN_of_wfn hwf

theorem empty_last_after_build_witness :
    (∀ p ∈ [(([97, 98, 99, 100] : Key), 1), ([120, 121, 122], 2),
        ([97, 98], 3)], p.1 ≠ []) ∧
    elaN ((buildT [(([97, 98, 99, 100] : Key), 1), ([120, 121, 122], 2),
        ([97, 98], 3)]).getD PathTrie.new).root = true :=
  ⟨by decide,
    @empty_last_after_build
      [(([97, 98, 99, 100] : Key), 1), ([120, 121, 122], 2), ([97, 98], 3)]
      ((buildT [(([97, 98, 99, 100] : Key), 1), ([120, 121, 122], 2),
        ([97, 98], 3)]).getD PathTrie.new)
      (by decide) (by rfl)⟩

/-! ### C10: `get` never panics on built tries -/

def Node.isValueB : Node → Bool
  | .value _ _ => true
  | .children _ _ => false

/-- Every empty-fragment member of the list has a `Value` body. -/
def evOK (cs : List Node) : Bool :=
  cs.all (fun c => (!(isEmptyKey c)) || c.isValueB)

mutual
def goodN : Node → Bool
  | .value _ _ => true
  | .children _ cs => evOK cs && goodL cs
def goodL : List Node → Bool
  | [] => true
  | c :: cs => goodN c && goodL cs
end

theorem goodL_eq_all : ∀ {cs : List Node},
    goodL cs = true ↔ ∀ c ∈ cs, goodN c = true := by
  intro cs
  induction cs with
  | nil => simp [goodL]
  | cons c rest ih =>
    show (goodN c && goodL rest) = true ↔ _
    rw [Bool.and_eq_true, ih]
    constructor
    · intro ⟨h1, h2⟩ d hd
      rcases List.mem_cons.mp hd with hd' | hd'
      · subst hd'
        exact h1
      · exact h2 d hd'
    · intro h
      exact ⟨h c (List.mem_cons_self _ _),
        fun d hd => h d (List.mem_cons_of_mem _ hd)⟩

theorem good_member {cs : List Node} (hev : evOK cs = true)
    (hgl : goodL cs = true) {c : Node} (hc : c ∈ cs) :
    (c.key = [] → c.isValueB = true) ∧ goodN c = true := by
  refine ⟨?_, goodL_eq_all.mp hgl c hc⟩
  intro hce
  have h1 : ((!(isEmptyKey c)) || c.isValueB) = true :=
    List.all_eq_true.mp hev c hc
  have h2 : isEmptyKey c = true := by
    unfold isEmptyKey
    simp [hce]
  rw [h2] at h1
  simpa using h1

theorem goodN_children_intro {k0 : Key} {cs : List Node}
    (h : ∀ c ∈ cs, (c.key = [] → c.isValueB = true) ∧ goodN c = true) :
    goodN (Node.children k0 cs) = true := by
  show (evOK cs && goodL cs) = true
  rw [Bool.and_eq_true]
  constructor
  · unfold evOK
    rw [List.all_eq_true]
    intro c hc
    obtain ⟨h1, -⟩ := h c hc
    by_cases hce : c.key = []
    · rw [h1 hce, Bool.or_true]
    · have h2 : isEmptyKey c = false := by
        unfold isEmptyKey
        rw [decide_eq_false_iff_not]
        exact hce
      rw [h2]
      rfl
  · rw [goodL_eq_all]
    intro c hc
    exact (h c hc).2

theorem goodN_sort_children {k0 : Key} {X : List Node}
    (h : ∀ c ∈ X, (c.key = [] → c.isValueB = true) ∧ goodN c = true) :
    goodN (Node.children k0 (sortNodes X)) = true :=
  goodN_children_intro (fun c hc => h c ((sortNodes_perm X).mem_iff.mp hc))

theorem goodN_split {k0 : Key} {cs : List Node}
    (h : goodN (Node.children k0 cs) = true) :
    evOK cs = true ∧ goodL cs = true := by
  have h' : (evOK cs && goodL cs) = true := h
  rw [Bool.and_eq_true] at h'
  exact h'

theorem rekeyDrop_goodN {c : Node} {p : Nat} :
    goodN (rekeyDrop c p) = goodN c := by
  cases c <;> rfl

/-- `insert_inner` with a non-empty key preserves the node's fragment and
the `goodN` invariant (empty-fragment children are `Value`-bodied,
recursively), with no well-formedness assumptions beyond `goodN`. -/
theorem insertInner_good : ∀ (s : Nat) (key : Key), key.length ≤ s →
    key ≠ [] → ∀ (n n' : Node) (v : Nat), goodN n = true →
    insertInner n key v = some n' →
    n'.key = n.key ∧ goodN n' = true := by
  intro s
  induction s using Nat.strong_induction_on with
  | _ s ih =>
    intro key hs hk n n' v hgood hins
    cases n with
    | value k0 v0 =>
      rw [insertInner_push findPrefix_value] at hins
      injection hins with hins
      subst hins
      refine ⟨rfl, ?_⟩
      show goodN (Node.children k0
        (sortNodes ([Node.value [] v0] ++ [Node.value key v]))) = true
      apply goodN_sort_children
      intro c hc
      rcases List.mem_cons.mp hc with hc' | hc'
      · subst hc'
        exact ⟨fun _ => rfl, rfl⟩
      · simp only [List.append_eq, List.nil_append, List.mem_singleton] at hc'
        subst hc'
        exact ⟨fun _ => rfl, rfl⟩
    | children k0 cs =>
      obtain ⟨hev, hgl⟩ := goodN_split hgood
      rcases hfp : findPrefix (.children k0 cs) key with _ | ⟨i, p⟩
      · rw [insertInner_push hfp] at hins
        injection hins with hins
        subst hins
        refine ⟨rfl, ?_⟩
        apply goodN_sort_children
        intro c hc
        rcases List.mem_append.mp hc with hc' | hc'
        · exact good_member hev hgl hc'
        · rw [List.mem_singleton] at hc'
          subst hc'
          exact ⟨fun _ => rfl, rfl⟩
      · cases p with
        | noMatch o =>
          obtain ⟨c, -, -, hnmx, -⟩ := findPrefix_some hfp
          exact absurd rfl (hnmx o)
        | incomplete q =>
          obtain ⟨c, hc, hcl, -, hpre⟩ := findPrefix_some hfp
          have hcd : cs.getD i default = c := getD_of_get? hc
          cases q with
          | zero =>
            rw [insertInner_push0 hfp] at hins
            injection hins with hins
            subst hins
            refine ⟨rfl, ?_⟩
            apply goodN_sort_children
            intro d hd
            rcases List.mem_append.mp hd with hd' | hd'
            · exact good_member hev hgl hd'
            · rw [List.mem_singleton] at hd'
              subst hd'
              exact ⟨fun _ => rfl, rfl⟩
          | succ q' =>
            rw [insertInner_incS hfp, hcd] at hins
            rw [Option.map_eq_some'] at hins
            obtain ⟨c'', hc'', hn'⟩ := hins
            obtain ⟨hpc, hlen, hq⟩ := incomplete_facts hcl
            have hcne : c.key ≠ [] := by
              intro hh
              rw [hh] at hq
              simp at hq
            have hds : (key.drop (q' + 1)).length < s := by
              rw [List.length_drop]
              omega
            have hdne : key.drop (q' + 1) ≠ [] := by
              intro hh
              have hlh := congrArg List.length hh
              rw [List.length_drop] at hlh
              simp at hlh
              omega
            obtain ⟨hkey'', hgood''⟩ :=
              ih (key.drop (q' + 1)).length hds (key.drop (q' + 1)) le_rfl
                hdne c c'' v (good_member hev hgl (List.get?_mem hc)).2 hc''
            subst hn'
            refine ⟨rfl, ?_⟩
            apply goodN_children_intro
            intro d hd
            rcases List.mem_or_eq_of_mem_set hd with hd' | hd'
            · exact good_member hev hgl hd'
            · subst hd'
              refine ⟨?_, hgood''⟩
              intro hde
              rw [hkey''] at hde
              exact absurd hde hcne
        | perfectSubset pp =>
          obtain ⟨c, hc, hcl, -, hpre⟩ := findPrefix_some hfp
          have hcd : cs.getD i default = c := getD_of_get? hc
          obtain ⟨hpk, hlen, hp⟩ := findCommonPrefix_perfectSubset_iff.mp hcl
          subst hp
          have hins' := @insertInner_perfect k0 key cs i key.length v hfp
          rw [hcd] at hins'
          have hins2 : insertInner (.children k0 cs) key v =
              some (Node.children k0 (cs.set i
                ((Node.value (c.key.take key.length) v).push
                  (rekeyDrop c key.length)))) := hins'
          rw [hins2] at hins
          injection hins with hins
          subst hins
          have hkne0 : 0 < key.length := List.length_pos.mpr hk
          have htailne : c.key.drop key.length ≠ [] := by
            intro hh
            have hlh := congrArg List.length hh
            rw [List.length_drop] at hlh
            simp at hlh
            omega
          have hgoodc' : goodN ((Node.value (c.key.take key.length) v).push
              (rekeyDrop c key.length)) = true := by
            show goodN (Node.children (c.key.take key.length)
              (sortNodes ([Node.value [] v] ++ [rekeyDrop c key.length])))
              = true
            apply goodN_sort_children
            intro d hd
            rcases List.mem_cons.mp hd with hd' | hd'
            · subst hd'
              exact ⟨fun _ => rfl, rfl⟩
            · simp only [List.append_eq, List.nil_append,
                List.mem_singleton] at hd'
              subst hd'
              refine ⟨?_, ?_⟩
              · intro hde
                rw [rekeyDrop_key] at hde
                exact absurd hde htailne
              · rw [rekeyDrop_goodN]
                exact (good_member hev hgl (List.get?_mem hc)).2
          have hc'ne : ((Node.value (c.key.take key.length) v).push
              (rekeyDrop c key.length)).key ≠ [] := by
            show c.key.take key.length ≠ []
            intro hh
            have hlh := congrArg List.length hh
            rw [List.length_take] at hlh
            simp only [List.length_nil] at hlh
            omega
          refine ⟨rfl, ?_⟩
          apply goodN_children_intro
          intro d hd
          rcases List.mem_or_eq_of_mem_set hd with hd' | hd'
          · exact good_member hev hgl hd'
          · subst hd'
            exact ⟨fun hde => absurd hde hc'ne, hgoodc'⟩
        | divergent pp =>
          obtain ⟨c, hc, hcl, -, hpre⟩ := findPrefix_some hfp
          have hcd : cs.getD i default = c := getD_of_get? hc
          obtain ⟨htk, hp0, hpc, hpkk, hdne⟩ := findCommonPrefix_divergent hcl
          rw [insertInner_divergent hfp, diverge_sub_eq, hcd] at hins
          injection hins with hins
          subst hins
          have htailne : c.key.drop pp ≠ [] := by
            intro hh
            have hlh := congrArg List.length hh
            rw [List.length_drop] at hlh
            simp at hlh
            omega
          have hnewne : key.drop pp ≠ [] := by
            intro hh
            have hlh := congrArg List.length hh
            rw [List.length_drop] at hlh
            simp at hlh
            omega
          have hXgood : goodN (Node.children (key.take pp) (sortNodes
              [rekeyDrop c pp, Node.value (key.drop pp) v])) = true := by
            apply goodN_sort_children
            intro d hd
            rcases List.mem_cons.mp hd with hd' | hd'
            · subst hd'
              refine ⟨?_, ?_⟩
              · intro hde
                rw [rekeyDrop_key] at hde
                exact absurd hde htailne
              · rw [rekeyDrop_goodN]
                exact (good_member hev hgl (List.get?_mem hc)).2
            · rw [List.mem_singleton] at hd'
              subst hd'
              exact ⟨fun _ => rfl, rfl⟩
          have hXne : (Node.children (key.take pp) (sortNodes
              [rekeyDrop c pp, Node.value (key.drop pp) v])).key ≠ [] := by
            show key.take pp ≠ []
            intro hh
            have hlh := congrArg List.length hh
            rw [List.length_take] at hlh
            simp only [List.length_nil] at hlh
            omega
          refine ⟨rfl, ?_⟩
          apply goodN_sort_children
          intro d hd
          rcases List.mem_or_eq_of_mem_set hd with hd' | hd'
          · exact good_member hev hgl hd'
          · subst hd'
            exact ⟨fun hde => absurd hde hXne, hXgood⟩
        | exact =>
          obtain ⟨c, hc, hcl, -, hpre⟩ := findPrefix_some hfp
          have hcd : cs.getD i default = c := getD_of_get? hc
          rw [insertInner_exact hfp, hcd] at hins
          cases c with
          | children ck ch => simp [Node.setValue] at hins
          | value ck v0 =>
            have hck : ck = key := findCommonPrefix_exact_iff.mp hcl
            rw [show (Node.value ck v0).setValue v =
              some (Node.value ck v) from rfl, Option.map_some'] at hins
            injection hins with hins
            subst hins
            refine ⟨rfl, ?_⟩
            apply goodN_children_intro
            intro d hd
            rcases List.mem_or_eq_of_mem_set hd with hd' | hd'
            · exact good_member hev hgl hd'
            · subst hd'
              exact ⟨fun _ => rfl, rfl⟩

/-- The root invariant maintained by arbitrary normally-returning inserts,
including empty keys: the root is a `Children` node with empty fragment and
every root child satisfies `goodN` (the root's own child list may contain
empty-fragment `Children` children, created by empty-key inserts). -/
def RootGood (t : PathTrie) : Prop :=
  ∃ cs, t.root = Node.children [] cs ∧ ∀ c ∈ cs, goodN c = true

theorem insert_rootGood {t t' : PathTrie} {key : Key} {v : Nat}
    (h : RootGood t) (hins : t.insert key v = some t') : RootGood t' := by
  obtain ⟨cs, hroot, hgood⟩ := h
  unfold PathTrie.insert at hins
  rw [Option.map_eq_some'] at hins
  obtain ⟨n1, hn1, ht'⟩ := hins
  have ht'root : t'.root = n1 := by rw [← ht']
  rw [hroot] at hn1
  rcases hfp : findPrefix (.children [] cs) key with _ | ⟨i, p⟩
  · rw [insertInner_push hfp] at hn1
    injection hn1 with hn1
    refine ⟨sortNodes (cs ++ [Node.value key v]),
      by rw [ht'root, ← hn1]; rfl, ?_⟩
    intro c hc
    rcases List.mem_append.mp ((sortNodes_perm _).mem_iff.mp hc) with hc' | hc'
    · exact hgood c hc'
    · rw [List.mem_singleton] at hc'
      subst hc'
      rfl
  · cases p with
    | noMatch o =>
      obtain ⟨c, -, -, hnmx, -⟩ := findPrefix_some hfp
      exact absurd rfl (hnmx o)
    | incomplete q =>
      obtain ⟨c, hc, hcl, -, hpre⟩ := findPrefix_some hfp
      have hcd : cs.getD i default = c := getD_of_get? hc
      cases q with
      | zero =>
        rw [insertInner_push0 hfp] at hn1
        injection hn1 with hn1
        refine ⟨sortNodes (cs ++ [Node.value key v]),
          by rw [ht'root, ← hn1]; rfl, ?_⟩
        intro d hd
        rcases List.mem_append.mp
            ((sortNodes_perm _).mem_iff.mp hd) with hd' | hd'
        · exact hgood d hd'
        · rw [List.mem_singleton] at hd'
          subst hd'
          rfl
      | succ q' =>
        rw [insertInner_incS hfp, hcd] at hn1
        rw [Option.map_eq_some'] at hn1
        obtain ⟨c'', hc'', hn'⟩ := hn1
        obtain ⟨hpc, hlen, hq⟩ := incomplete_facts hcl
        have hdne : key.drop (q' + 1) ≠ [] := by
          intro hh
          have hlh := congrArg List.length hh
          rw [List.length_drop] at hlh
          simp at hlh
          omega
        obtain ⟨-, hgood''⟩ :=
          insertInner_good (key.drop (q' + 1)).length (key.drop (q' + 1))
            le_rfl hdne c c'' v (hgood c (List.get?_mem hc)) hc''
        refine ⟨cs.set i c'', by rw [ht'root, ← hn'], ?_⟩
        intro d hd
        rcases List.mem_or_eq_of_mem_set hd with hd' | hd'
        · exact hgood d hd'
        · subst hd'
          exact hgood''
    | perfectSubset pp =>
      obtain ⟨c, hc, hcl, -, hpre⟩ := findPrefix_some hfp
      have hcd : cs.getD i default = c := getD_of_get? hc
      obtain ⟨hpk, hlen, hp⟩ := findCommonPrefix_perfectSubset_iff.mp hcl
      subst hp
      have hins' := @insertInner_perfect ([] : Key) key cs i key.length v hfp
      rw [hcd] at hins'
      have hins2 : insertInner (.children [] cs) key v =
          some (Node.children [] (cs.set i
            ((Node.value (c.key.take key.length) v).push
              (rekeyDrop c key.length)))) := hins'
      rw [hins2] at hn1
      injection hn1 with hn1
      have htailne : c.key.drop key.length ≠ [] := by
        intro hh
        have hlh := congrArg List.length hh
        rw [List.length_drop] at hlh
        simp at hlh
        omega
      have hgoodc' : goodN ((Node.value (c.key.take key.length) v).push
          (rekeyDrop c key.length)) = true := by
        show goodN (Node.children (c.key.take key.length)
          (sortNodes ([Node.value [] v] ++ [rekeyDrop c key.length]))) = true
        apply goodN_sort_children
        intro d hd
        rcases List.mem_cons.mp hd with hd' | hd'
        · subst hd'
          exact ⟨fun _ => rfl, rfl⟩
        · simp only [List.append_eq, List.nil_append,
            List.mem_singleton] at hd'
          subst hd'
          refine ⟨?_, ?_⟩
          · intro hde
            rw [rekeyDrop_key] at hde
            exact absurd hde htailne
          · rw [rekeyDrop_goodN]
            exact hgood c (List.get?_mem hc)
      refine ⟨cs.set i ((Node.value (c.key.take key.length) v).push
        (rekeyDrop c key.length)), by rw [ht'root, ← hn1], ?_⟩
      intro d hd
      rcases List.mem_or_eq_of_mem_set hd with hd' | hd'
      · exact hgood d hd'
      · subst hd'
        exact hgoodc'
    | divergent pp =>
      obtain ⟨c, hc, hcl, -, hpre⟩ := findPrefix_some hfp
      have hcd : cs.getD i default = c := getD_of_get? hc
      obtain ⟨htk, hp0, hpc, hpkk, hdne2⟩ := findCommonPrefix_divergent hcl
      rw [insertInner_divergent hfp, diverge_sub_eq, hcd] at hn1
      injection hn1 with hn1
      have htailne : c.key.drop pp ≠ [] := by
        intro hh
        have hlh := congrArg List.length hh
        rw [List.length_drop] at hlh
        simp at hlh
        omega
      have hXgood : goodN (Node.children (key.take pp) (sortNodes
          [rekeyDrop c pp, Node.value (key.drop pp) v])) = true := by
        apply goodN_sort_children
        intro d hd
        rcases List.mem_cons.mp hd with hd' | hd'
        · subst hd'
          refine ⟨?_, ?_⟩
          · intro hde
            rw [rekeyDrop_key] at hde
            exact absurd hde htailne
          · rw [rekeyDrop_goodN]
            exact hgood c (List.get?_mem hc)
        · rw [List.mem_singleton] at hd'
          subst hd'
          exact ⟨fun _ => rfl, rfl⟩
      refine ⟨sortNodes (cs.set i (Node.children (key.take pp) (sortNodes
        [rekeyDrop c pp, Node.value (key.drop pp) v]))),
        by rw [ht'root, ← hn1], ?_⟩
      intro d hd
      rcases List.mem_or_eq_of_mem_set
          ((sortNodes_perm _).mem_iff.mp hd) with hd' | hd'
      · exact hgood d hd'
      · subst hd'
        exact hXgood
    | exact =>
      obtain ⟨c, hc, hcl, -, hpre⟩ := findPrefix_some hfp
      have hcd : cs.getD i default = c := getD_of_get? hc
      rw [insertInner_exact hfp, hcd] at hn1
      cases c with
      | children ck ch => simp [Node.setValue] at hn1
      | value ck v0 =>
        rw [show (Node.value ck v0).setValue v =
          some (Node.value ck v) from rfl, Option.map_some'] at hn1
        injection hn1 with hn1
        refine ⟨cs.set i (Node.value ck v), by rw [ht'root, ← hn1], ?_⟩
        intro d hd
        rcases List.mem_or_eq_of_mem_set hd with hd' | hd'
        · exact hgood d hd'
        · subst hd'
          rfl

/-- `walk` never hits the `unreachable!` arm: with `sizeN` fuel the
recursion always lands in a returning arm. -/
theorem walk_total : ∀ (s : Nat) (n : Node), sizeN n ≤ s → ∀ key,
    walk key n ≠ none := by
  intro s
  induction s using Nat.strong_induction_on with
  | _ s ih =>
    intro n hsz key
    cases n with
    | value k0 v0 =>
      rw [walk_value]
      simp
    | children k0 cs =>
      rcases hfp : findPrefix (.children k0 cs) key with _ | ⟨i, p⟩
      · rw [walk_none hfp]
        simp
      · cases p with
        | noMatch o =>
          obtain ⟨c, -, -, hnmx, -⟩ := findPrefix_some hfp
          exact absurd rfl (hnmx o)
        | divergent q =>
          rw [walk_divergent hfp]
          simp
        | perfectSubset q =>
          rw [walk_perfect hfp]
          simp
        | exact =>
          rw [walk_exact hfp]
          rcases cs.getD i default with ⟨ck, vv⟩ | ⟨ck, cs2⟩ <;> simp
        | incomplete q =>
          obtain ⟨c, hc, -, -, -⟩ := findPrefix_some hfp
          have hcd := getD_of_get? hc
          rw [walk_incomplete hfp, hcd]
          have hlt : sizeN c < sizeN (.children k0 cs) :=
            sizeN_lt (List.get?_mem hc)
          exact ih (sizeN c) (by omega) c le_rfl (key.drop q)

/-- Under the `goodN`-invariant on the children, `walk` only ever returns
`Value`-bodied nodes, so `assert_value` in `get` cannot panic. -/
theorem walk_result_value : ∀ (s : Nat) (n : Node), sizeN n ≤ s →
    (∀ kr cc, n = Node.children kr cc → ∀ c ∈ cc, goodN c = true) →
    ∀ (key : Key) (m : Node), walk key n = some (some m) →
    ∃ ck vv, m = Node.value ck vv := by
  intro s
  induction s using Nat.strong_induction_on with
  | _ s ih =>
    intro n hsz hgood key m hw
    cases n with
    | value k0 v0 =>
      rw [walk_value] at hw
      simp at hw
    | children k0 cs =>
      rcases hfp : findPrefix (.children k0 cs) key with _ | ⟨i, p⟩
      · rw [walk_none hfp] at hw
        simp at hw
      · cases p with
        | noMatch o =>
          obtain ⟨c, -, -, hnmx, -⟩ := findPrefix_some hfp
          exact absurd rfl (hnmx o)
        | divergent q =>
          rw [walk_divergent hfp] at hw
          simp at hw
        | perfectSubset q =>
          rw [walk_perfect hfp] at hw
          simp at hw
        | exact =>
          obtain ⟨c, hc, -, -, -⟩ := findPrefix_some hfp
          have hcd := getD_of_get? hc
          rw [walk_exact hfp, hcd] at hw
          cases c with
          | value ck vv =>
            injection hw with hw
            injection hw with hw
            exact ⟨ck, vv, hw.symm⟩
          | children ck cs2 =>
            have hw2 : (some (match cs2.getLast? with
                | some x => if x.key = [] then some x else none
                | none => none) : Option (Option Node)) = some (some m) := hw
            rcases hlast : cs2.getLast? with _ | x
            · rw [hlast] at hw2
              simp at hw2
            · rw [hlast] at hw2
              have hw3 : (some (if x.key = [] then some x else none) :
                  Option (Option Node)) = some (some m) := hw2
              by_cases hxe : x.key = []
              · rw [if_pos hxe] at hw3
                injection hw3 with hw3
                injection hw3 with hw3
                subst hw3
                have hxmem : x ∈ cs2 := List.mem_of_mem_getLast? hlast
                have hgc : goodN (Node.children ck cs2) = true :=
                  hgood k0 cs rfl _ (List.get?_mem hc)
                obtain ⟨hev2, hgl2⟩ := goodN_split hgc
                obtain ⟨hval, -⟩ := good_member hev2 hgl2 hxmem
                have hxv := hval hxe
                cases x with
                | value ck2 vv2 => exact ⟨ck2, vv2, rfl⟩
                | children ck2 ch2 => simp [Node.isValueB] at hxv
              · rw [if_neg hxe] at hw3
                simp at hw3
        | incomplete q =>
          obtain ⟨c, hc, -, -, -⟩ := findPrefix_some hfp
          have hcd := getD_of_get? hc
          rw [walk_incomplete hfp, hcd] at hw
          have hlt : sizeN c < sizeN (.children k0 cs) :=
            sizeN_lt (List.get?_mem hc)
          have hgc : goodN c = true := hgood k0 cs rfl c (List.get?_mem hc)
          refine ih (sizeN c) (by omega) c le_rfl ?_ (key.drop q) m hw
          intro kr cc hcc
          subst hcc
          obtain ⟨-, hgl2⟩ := goodN_split hgc
          exact goodL_eq_all.mp hgl2

theorem rootGood_get_total {t : PathTrie} (h : RootGood t) (k : Key) :
    (t.get k).isSome = true := by
  obtain ⟨cs, hroot, hgood⟩ := h
  have hprop : ∀ kr cc, t.root = Node.children kr cc →
      ∀ c ∈ cc, goodN c = true := by
    intro kr cc hcc
    rw [hroot] at hcc
    injection hcc with h1 h2
    subst h2
    exact hgood
  rcases hw : walk k t.root with _ | om
  · rw [hroot] at hw
    exact absurd hw
      (walk_total (sizeN (Node.children [] cs)) _ le_rfl k)
  · unfold PathTrie.get
    rw [hw]
    cases om with
    | none => rfl
    | some m =>
      obtain ⟨ck, vv, hm⟩ :=
        walk_result_value (sizeN t.root) t.root le_rfl hprop k m hw
      subst hm
      rfl

theorem buildT_rootGood : ∀ (l : List (Key × Nat)) (t0 t : PathTrie),
    RootGood t0 → l.foldlM (fun t q => t.insert q.1 q.2) t0 = some t →
    RootGood t := by
  intro l
  induction l with
  | nil =>
    intro t0 t h hf
    rw [List.foldlM_nil] at hf
    injection hf with hf
    subst hf
    exact h
  | cons q rest ih =>
    intro t0 t h hf
    rw [List.foldlM_cons] at hf
    rcases hins : t0.insert q.1 q.2 with _ | t1
    · rw [hins] at hf
      simp at hf
    · rw [hins] at hf
      simp only [Option.bind_eq_bind, Option.some_bind] at hf
      exact ih t1 t (insert_rootGood h hins) hf

/-- C10 counterexample: `insert("a", 1); insert("", 2)` — both returning
normally — takes the `PerfectSubset(0)` path and leaves the root's only
child as an empty-fragment `Children`-bodied node, so the claim's asserted
invariant "every empty-fragment child has a `Value` body" fails at the
root's own child list (`evOK` of the root children is `false`). -/
theorem c10_counterexample :
    (buildT [(([97] : Key), 1), ([], 2)]).map
      (fun t => match t.root with
        | .children _ cs => evOK cs
        | .value _ _ => true) = some false := rfl

/-- C10 (amended): for every trie reachable from `new()` by a finite
sequence of normally-returning inserts (any keys, the empty key included)
and every lookup key, `get` terminates with `Some` or `None` and never
panics — neither `assert_value` nor the `unreachable!` arm of `walk` is
hit — and every empty-fragment child strictly below the root's own child
list has a `Value` body (every root child satisfies `goodN`); the root's
own list may hold an empty-fragment `Children`-bodied child. -/
theorem get_total_below_root {l : List (Key × Nat)} {t : PathTrie}
    (hb : buildT l = some t) :
    (∀ k, (t.get k).isSome = true) ∧
    (∀ kr cs, t.root = Node.children kr cs → ∀ c ∈ cs, goodN c = true) := by
  have hroot := buildT_rootGood l PathTrie.new t
    ⟨[], rfl, fun c hc => absurd hc (List.not_mem_nil c)⟩ hb
  refine ⟨fun k => rootGood_get_total hroot k, ?_⟩
  obtain ⟨cs, hcs, hgood⟩ := hroot
  intro kr cs' hcc
  rw [hcs] at hcc
  injection hcc with h1 h2
  subst h2
  exact hgood

theorem get_total_below_root_witness :
    buildT [(([97] : Key), 1), ([], 2)] =
      some ((buildT [(([97] : Key), 1), ([], 2)]).getD PathTrie.new) ∧
    ((((buildT [(([97] : Key), 1), ([], 2)]).getD PathTrie.new).get
      []).isSome = true) :=
  ⟨by rfl,
    (@get_total_below_root [(([97] : Key), 1), ([], 2)]
      ((buildT [(([97] : Key), 1), ([], 2)]).getD PathTrie.new)
      (by rfl)).1 []⟩

/-! ### C6: the writer's key-fragment length limit is a panic -/

theorem writeStep_long {W : Nat} {e : Key × Node}
    (h : 255 < e.2.key.length) : ∀ st, writeStep W st e = none := by
  intro st
  unfold writeStep
  simp only [if_pos h]
  split <;> rfl

theorem foldlM_writeStep_none {W : Nat} :
    ∀ (l : List (Key × Node)) (st : WState) (e : Key × Node), e ∈ l →
    (∀ st', writeStep W st' e = none) →
    l.foldlM (writeStep W) st = none := by
  intro l
  induction l with
  | nil =>
    intro st e he
    simp at he
  | cons a rest ih =>
    intro st e he hf
    rw [List.foldlM_cons]
    rcases List.mem_cons.mp he with he' | he'
    · subst he'
      rw [hf st]
      rfl
    · rcases ha : writeStep W st a with _ | st1
      · rfl
      · simp only [Option.bind_eq_bind, Option.some_bind]
        exact ih st1 e he' hf

/-- C6 (amended): `write_fst` panics (modelled `none`, the
`expect("Keys are currently limited to 255 bytes in length")`) whenever the
trie contains a child whose key fragment exceeds 255 bytes; no `KeyTooLong`
error value is returned to the caller. -/
theorem writeFst_long_fragment_panics {W : Nat} {t : PathTrie}
    (h : ∃ e ∈ rawEntriesN t.root [], 255 < e.2.key.length) :
    writeFst W t = none := by
  obtain ⟨e, he, hlen⟩ := h
  have hn := @foldlM_writeStep_none W (rawEntriesN t.root [])
    (⟨zeros 4 ++ zeros (4 % W), [], [], []⟩ : WState) e he
    (@writeStep_long W e hlen)
  unfold writeFst
  simp only [hn]

theorem writeFst_long_fragment_panics_witness :
    writeFst 4 ((buildT [(List.replicate 256 7, 1)]).getD PathTrie.new)
      = none :=
  @writeFst_long_fragment_panics 4
    ((buildT [(List.replicate 256 7, 1)]).getD PathTrie.new) (by decide)

/-! ### C9: record alignment for the widths whose header pad works -/

theorem patchList_length : ∀ (bs p : List Nat),
    (patchList bs p).length = bs.length := by
  intro bs
  induction bs with
  | nil =>
    intro p
    cases p <;> rfl
  | cons b rest ih =>
    intro p
    cases p with
    | nil => rfl
    | cons q qs =>
      show (q :: patchList rest qs).length = (b :: rest).length
      rw [List.length_cons, List.length_cons, ih]

theorem overwriteFrom_length {bs p : List Nat} {off : Nat} :
    (overwriteFrom bs off p).length = bs.length := by
  unfold overwriteFrom
  rw [List.length_append, List.length_take, patchList_length,
    List.length_drop]
  omega

theorem pad_aligned {W L : Nat} (hW : 0 < W) : W ∣ L + (W - L % W) := by
  have h1 : L % W < W := Nat.mod_lt _ hW
  have h3 := Nat.div_add_mod L W
  refine ⟨L / W + 1, ?_⟩
  have h4 : W * (L / W + 1) = W * (L / W) + W := by ring
  omega

theorem zeros_length {n : Nat} : (zeros n).length = n :=
  List.length_replicate _ _

/-- Tail of a successful `writeStep` (after the wip/back-patch phase): the
buffer ends padded to a `W` boundary and the record offset `st1.buf.length`
is appended. -/
theorem writeStep_tail_shape {W : Nat} {st1 st' : WState} {e : Key × Node}
    {wip2 : List (Key × Nat)} {buf2 : List Nat}
    (h : (if 255 < e.2.key.length then none
      else
        let body : List Nat :=
          match e.2 with
          | .children _ _ => zeros 4
          | .value _ v => List.replicate 4 255 ++ leBytes W v
        let buf3 := buf2 ++ body ++ [e.2.key.length] ++ e.2.key
        let pad := W - buf3.length % W
        (some ⟨buf3 ++ zeros pad, wip2, st1.currentParent,
          st1.offs ++ [st1.buf.length]⟩ : Option WState)) = some st') :
    ∃ L, st'.buf.length = L + (W - L % W) ∧
      st'.offs = st1.offs ++ [st1.buf.length] := by
  by_cases h255 : 255 < e.2.key.length
  · rw [if_pos h255] at h
    exact absurd h (by simp)
  · rw [if_neg h255] at h
    injection h with h
    subst h
    refine ⟨(buf2 ++ (match e.2 with
      | .children _ _ => zeros 4
      | .value _ v => List.replicate 4 255 ++ leBytes W v) ++
      [e.2.key.length] ++ e.2.key).length, ?_, rfl⟩
    show ((buf2 ++ _ ++ [e.2.key.length] ++ e.2.key) ++ zeros _).length = _
    rw [List.length_append, zeros_length]

theorem writeStep_match_shape {W : Nat} {st1 st' : WState} {e : Key × Node}
    {pr : Option (List (Key × Nat) × List Nat)}
    (h : (match pr with
      | none => none
      | some (wip, buf) =>
        if 255 < e.2.key.length then none
        else
          let body : List Nat :=
            match e.2 with
            | .children _ _ => zeros 4
            | .value _ v => List.replicate 4 255 ++ leBytes W v
          let buf3 := buf ++ body ++ [e.2.key.length] ++ e.2.key
          let pad := W - buf3.length % W
          (some ⟨buf3 ++ zeros pad, wip, st1.currentParent,
            st1.offs ++ [st1.buf.length]⟩ : Option WState)) = some st') :
    ∃ L, st'.buf.length = L + (W - L % W) ∧
      st'.offs = st1.offs ++ [st1.buf.length] := by
  rcases pr with _ | ⟨w, b⟩
  · exact absurd h (by simp)
  · exact writeStep_tail_shape h

/-- Shape of a successful `writeStep` in terms of the incoming state. -/
theorem writeStep_shape {W : Nat} {st st' : WState} {e : Key × Node}
    (h : writeStep W st e = some st') :
    ∃ (L : Nat) (st1 : WState),
      (st1 = st ∨ (st1.buf.length = st.buf.length + nodeSize W ∧
        st1.offs = st.offs ++ [st.buf.length])) ∧
      st'.buf.length = L + (W - L % W) ∧
      st'.offs = st1.offs ++ [st1.buf.length] := by
  unfold writeStep at h
  by_cases hpar : st.currentParent = e.1
  · rw [if_pos hpar] at h
    obtain ⟨L, h1, h2⟩ := writeStep_match_shape h
    exact ⟨L, st, Or.inl rfl, h1, h2⟩
  · rw [if_neg hpar] at h
    obtain ⟨L, h1, h2⟩ :=
      @writeStep_match_shape W
        (⟨st.buf ++ zeros (nodeSize W), st.wip, e.1,
          st.offs ++ [st.buf.length]⟩ : WState) st' e _ h
    refine ⟨L, ⟨st.buf ++ zeros (nodeSize W), st.wip, e.1,
      st.offs ++ [st.buf.length]⟩, Or.inr ⟨?_, rfl⟩, h1, h2⟩
    show (st.buf ++ zeros (nodeSize W)).length = _
    rw [List.length_append, zeros_length]

theorem writeStep_aligned {W : Nat} (hW0 : 0 < W) (hdvd : W ∣ nodeSize W)
    {st st' : WState} {e : Key × Node}
    (hbuf : W ∣ st.buf.length) (hoffs : ∀ o ∈ st.offs, W ∣ o)
    (h : writeStep W st e = some st') :
    W ∣ st'.buf.length ∧ ∀ o ∈ st'.offs, W ∣ o := by
  obtain ⟨L, st1, hst1, h1, h2⟩ := writeStep_shape h
  have hs1buf : W ∣ st1.buf.length := by
    rcases hst1 with rfl | ⟨ha, -⟩
    · exact hbuf
    · rw [ha]
      exact Nat.dvd_add hbuf hdvd
  have hs1offs : ∀ o ∈ st1.offs, W ∣ o := by
    rcases hst1 with rfl | ⟨-, hb⟩
    · exact hoffs
    · rw [hb]
      intro o ho
      rcases List.mem_append.mp ho with ho' | ho'
      · exact hoffs o ho'
      · rw [List.mem_singleton] at ho'
        subst ho'
        exact hbuf
  refine ⟨?_, ?_⟩
  · rw [h1]
    exact pad_aligned hW0
  · rw [h2]
    intro o ho
    rcases List.mem_append.mp ho with ho' | ho'
    · exact hs1offs o ho'
    · rw [List.mem_singleton] at ho'
      subst ho'
      exact hs1buf

theorem foldlM_writeStep_aligned {W : Nat} (hW0 : 0 < W)
    (hdvd : W ∣ nodeSize W) :
    ∀ (l : List (Key × Node)) (st st' : WState),
    W ∣ st.buf.length → (∀ o ∈ st.offs, W ∣ o) →
    l.foldlM (writeStep W) st = some st' →
    W ∣ st'.buf.length ∧ ∀ o ∈ st'.offs, W ∣ o := by
  intro l
  induction l with
  | nil =>
    intro st st' h1 h2 hf
    rw [List.foldlM_nil] at hf
    injection hf with hf
    subst hf
    exact ⟨h1, h2⟩
  | cons a rest ih =>
    intro st st' h1 h2 hf
    rw [List.foldlM_cons] at hf
    rcases ha : writeStep W st a with _ | st1
    · rw [ha] at hf
      simp at hf
    · rw [ha] at hf
      simp only [Option.bind_eq_bind, Option.some_bind] at hf
      obtain ⟨h1', h2'⟩ := writeStep_aligned hW0 hdvd h1 h2 ha
      exact ih st1 st' h1' h2' hf

/-- C9 (amended): for `W ∈ {1, 2, 4, 8}` every record offset emitted by
`write_fst` is a multiple of `W`.  (At `W = 16` this fails: the header pad
is `4 % W` bytes, so the first record sits at offset 8; and the
`next_offset` placeholder/sentinel is always the 4-byte `NodeOffset`, not a
`W`-byte field — see the counterexample.) -/
theorem writeFst_offsets_aligned {W : Nat}
    (hW : W = 1 ∨ W = 2 ∨ W = 4 ∨ W = 8) {t : PathTrie}
    {bytes offs : List Nat} (h : writeFst W t = some (bytes, offs)) :
    ∀ o ∈ offs, W ∣ o := by
  have hW0 : 0 < W := by
    rcases hW with rfl | rfl | rfl | rfl <;> decide
  have hdvd : W ∣ nodeSize W := by
    rcases hW with rfl | rfl | rfl | rfl <;> decide
  have hinit : W ∣ (zeros 4 ++ zeros (4 % W)).length := by
    rcases hW with rfl | rfl | rfl | rfl <;> decide
  unfold writeFst at h
  have h2 : (match (rawEntriesN t.root []).foldlM (writeStep W)
      (⟨zeros 4 ++ zeros (4 % W), [], [], []⟩ : WState) with
    | none => none
    | some st => some (overwriteFrom (st.buf ++ zeros (nodeSize W)) 0
        [0xFF, 0xDF, 0, W], st.offs ++ [st.buf.length])
    : Option (List Nat × List Nat)) = some (bytes, offs) := h
  rcases hf : (rawEntriesN t.root []).foldlM (writeStep W)
      (⟨zeros 4 ++ zeros (4 % W), [], [], []⟩ : WState) with _ | stF
  · rw [hf] at h2
    simp at h2
  · rw [hf] at h2
    have h3 : (some (overwriteFrom (stF.buf ++ zeros (nodeSize W)) 0
        [0xFF, 0xDF, 0, W], stF.offs ++ [stF.buf.length])
        : Option (List Nat × List Nat)) = some (bytes, offs) := h2
    injection h3 with h3
    rw [Prod.mk.injEq] at h3
    obtain ⟨-, hoffs⟩ := h3
    obtain ⟨hbufF, hoffsF⟩ := foldlM_writeStep_aligned hW0 hdvd
      (rawEntriesN t.root []) _ stF hinit
      (fun o ho => absurd ho (List.not_mem_nil o)) hf
    intro o ho
    rw [← hoffs] at ho
    rcases List.mem_append.mp ho with ho' | ho'
    · exact hoffsF o ho'
    · rw [List.mem_singleton] at ho'
      subst ho'
      exact hbufF

theorem writeFst_offsets_aligned_witness :
    24 ∈ ((writeFst 8 ((buildT [(([97] : Key), 1)]).getD
        PathTrie.new)).getD ([], [])).2 ∧ 8 ∣ 24 :=
  ⟨by decide,
    @writeFst_offsets_aligned 8 (by decide)
      ((buildT [(([97] : Key), 1)]).getD PathTrie.new)
      ((writeFst 8 ((buildT [(([97] : Key), 1)]).getD PathTrie.new)).getD
        ([], [])).1
      ((writeFst 8 ((buildT [(([97] : Key), 1)]).getD PathTrie.new)).getD
        ([], [])).2
      (by rfl) 24 (by decide)⟩

end Pathtrie
